import Mathlib

/-!
Verification of the bitvm2-splitter repository against its specification.

Shallow embedding conventions:
* a stack item is a little-endian list of bytes (`Item := List Nat`);
* VM stacks are `List Item` with the HEAD of the list being the TOP of
  the stack;
* scripts are lists of parsed instructions (`Instr`), exactly the view
  that `bitcoin::Script::instructions()` provides to the Rust code;
* machine integers of the source are embedded as `Nat`/`Int` with the
  overflow/underflow behaviour noted at each definition.
-/

namespace BitVM

/-! ## Definitions -/


/-- A stack element: a string of bytes, least significant first. -/
abbrev Item := List Nat

/-- Little-endian value of a byte string. -/
def leNat : Item → Nat
  | [] => 0
  | b :: bs => b + 256 * leNat bs

/-- Little-endian bytes of a natural number, with no trailing zero byte
(`0` encodes to the empty string).  This is the magnitude part of the
minimal CScriptNum serialization used by the script VM. -/
def natBytesF : Nat → Nat → List Nat
  | 0, _ => []
  | fuel + 1, n => if n = 0 then [] else (n % 256) :: natBytesF fuel (n / 256)

/-- Little-endian base-256 digits of a natural number (the fuel of
`natBytesF` only bounds the recursion depth; `n` steps always suffice
since the argument shrinks by a factor of 256). -/
def natBytes (n : Nat) : List Nat := natBytesF n n

/-- Minimal CScriptNum encoding of an integer: little-endian magnitude,
sign carried by the high bit of the last byte (an extra byte is added
when the magnitude already occupies that bit). -/
def encodeNum (i : Int) : Item :=
  if i = 0 then []
  else
    let bs := natBytes i.natAbs
    match bs.getLast? with
    | some x =>
      if x < 128 then
        if i < 0 then bs.dropLast ++ [x + 128] else bs
      else bs ++ [if i < 0 then 128 else 0]
    | none => []

/-- CScriptNum decoding (non-strict, as the VM is run with
`require_minimal: false`): little-endian, the high bit of the final byte
is the sign. -/
def decodeNum (l : Item) : Int :=
  match l with
  | [] => 0
  | _ :: _ =>
    let m := leNat l
    let s := 2 ^ (8 * l.length - 1)
    if m < s then (m : Int) else -((m - s : Nat) : Int)

/-! ### Parsed scripts and the script VM
`Instr` is the parsed instruction view that `bitcoin::Script::instructions()`
hands to the Rust code: a data push (this includes `OP_0`/`OP_PUSHBYTES_0`,
which parses as an empty push) or a non-push opcode byte.
The VM semantics below is modelled from the spec: the external
`bitcoin_scriptexec` collaborator of section 6, executed in the Tapscript
context with `require_minimal: false` and `enforce_stack_limit: false`
(section 4.C), restricted to the opcode surface the spec enumerates. -/
/-- A parsed script instruction: a data push or an opcode. -/

inductive Instr where
  | push (d : Item)
  | op (c : Nat)
deriving DecidableEq, Repr

/-- A script is the list of its parsed instructions. -/
abbrev Script := List Instr

def OP_1NEGATE : Nat := 0x4f

def OP_PUSHNUM_1 : Nat := 0x51

def OP_PUSHNUM_16 : Nat := 0x60

def OP_IF : Nat := 0x63

def OP_NOTIF : Nat := 0x64

def OP_ENDIF : Nat := 0x68

def OP_TOALTSTACK : Nat := 0x6b

def OP_FROMALTSTACK : Nat := 0x6c

def OP_2DROP : Nat := 0x6d

def OP_DROP : Nat := 0x75

def OP_DUP : Nat := 0x76

def OP_PICK : Nat := 0x79

def OP_ROLL : Nat := 0x7a

def OP_SWAP : Nat := 0x7c

def OP_TUCK : Nat := 0x7d

def OP_EQUAL : Nat := 0x87

def OP_EQUALVERIFY : Nat := 0x88

def OP_NEGATE : Nat := 0x8f

def OP_NOT : Nat := 0x91

def OP_ADD : Nat := 0x93

def OP_SUB : Nat := 0x94

def OP_BOOLOR : Nat := 0x9b

def OP_MIN : Nat := 0xa3

def OP_HASH160 : Nat := 0xa9

/-- The two VM stacks; the head of each list is the top of the stack. -/
structure VM where
  main : List Item
  alt : List Item
deriving DecidableEq, Repr

/-- Numeric interpretation of a stack item used by arithmetic opcodes:
operands longer than 4 bytes are rejected (CScriptNum input limit). -/
def num? (l : Item) : Option Int :=
  if l.length ≤ 4 then some (decodeNum l) else none

/-- The boolean results `OP_EQUAL`, `OP_NOT`, `OP_BOOLOR` push. -/
def boolItem (b : Bool) : Item := if b then [1] else []

/-- Truthiness of a stack item (`cast_to_bool`). -/
def itemTruthy (l : Item) : Bool := decodeNum l != 0

/-- Binary numeric opcode: pops the top two items, the top one is the
second operand. -/
def binNumOp (v : VM) (f : Int → Int → Int) : Option VM :=
  match v.main with
  | b :: a :: s =>
    match num? a, num? b with
    | some x, some y => some ⟨encodeNum (f x y) :: s, v.alt⟩
    | _, _ => none
  | _ => none

/-- Unary numeric opcode. -/
def unNumOp (v : VM) (f : Int → Int) : Option VM :=
  match v.main with
  | a :: s =>
    match num? a with
    | some x => some ⟨encodeNum (f x) :: s, v.alt⟩
    | none => none
  | _ => none

/-- One VM step.  `h` is the `HASH160` oracle (the external hash).
`none` models a script error (the VM halts with `success = false`). -/
def execInstr (h : Item → Item) (v : VM) : Instr → Option VM
  | .push d => some ⟨d :: v.main, v.alt⟩
  | .op c =>
    if c = OP_1NEGATE then some ⟨encodeNum (-1) :: v.main, v.alt⟩
    else if OP_PUSHNUM_1 ≤ c ∧ c ≤ OP_PUSHNUM_16 then
      some ⟨encodeNum ((c : Int) - 80) :: v.main, v.alt⟩
    else if c = OP_DUP then
      match v.main with
      | x :: s => some ⟨x :: x :: s, v.alt⟩
      | [] => none
    else if c = OP_DROP then
      match v.main with
      | _ :: s => some ⟨s, v.alt⟩
      | [] => none
    else if c = OP_2DROP then
      match v.main with
      | _ :: _ :: s => some ⟨s, v.alt⟩
      | _ => none
    else if c = OP_TOALTSTACK then
      match v.main with
      | x :: s => some ⟨s, x :: v.alt⟩
      | [] => none
    else if c = OP_FROMALTSTACK then
      match v.alt with
      | x :: a => some ⟨x :: v.main, a⟩
      | [] => none
    else if c = OP_SWAP then
      match v.main with
      | x :: y :: s => some ⟨y :: x :: s, v.alt⟩
      | _ => none
    else if c = OP_TUCK then
      match v.main with
      | x :: y :: s => some ⟨x :: y :: x :: s, v.alt⟩
      | _ => none
    else if c = OP_ROLL then
      match v.main with
      | x :: s =>
        match num? x with
        | some n =>
          if n < 0 then none
          else
            match s.get? n.toNat with
            | some y => some ⟨y :: s.eraseIdx n.toNat, v.alt⟩
            | none => none
        | none => none
      | [] => none
    else if c = OP_PICK then
      match v.main with
      | x :: s =>
        match num? x with
        | some n =>
          if n < 0 then none
          else
            match s.get? n.toNat with
            | some y => some ⟨y :: s, v.alt⟩
            | none => none
        | none => none
      | [] => none
    else if c = OP_EQUAL then
      match v.main with
      | b :: a :: s => some ⟨boolItem (a = b) :: s, v.alt⟩
      | _ => none
    else if c = OP_EQUALVERIFY then
      match v.main with
      | b :: a :: s => if a = b then some ⟨s, v.alt⟩ else none
      | _ => none
    else if c = OP_NOT then unNumOp v (fun n => if n = 0 then 1 else 0)
    else if c = OP_NEGATE then unNumOp v (fun n => -n)
    else if c = OP_ADD then binNumOp v (fun a b => a + b)
    else if c = OP_SUB then binNumOp v (fun a b => a - b)
    else if c = OP_BOOLOR then
      binNumOp v (fun a b => if a ≠ 0 ∨ b ≠ 0 then 1 else 0)
    else if c = OP_MIN then binNumOp v (fun a b => min a b)
    else if c = OP_HASH160 then
      match v.main with
      | x :: s => some ⟨h x :: s, v.alt⟩
      | [] => none
    else none

/-- Run a script; `none` when a step errors. -/
def execScript (h : Item → Item) : VM → Script → Option VM
  | v, [] => some v
  | v, i :: r =>
    match execInstr h v i with
    | some v2 => execScript h v2 r
    | none => none

/-- How the treepp `script!` macro pushes an integer expression: `OP_0`
for zero (an empty push), `OP_PUSHNUM` opcodes for 1..16 and -1, a
minimal CScriptNum data push otherwise. -/
def pushInt (i : Int) : Instr :=
  if i = 0 then .push []
  else if 1 ≤ i ∧ i ≤ 16 then .op (80 + i.toNat)
  else if i = -1 then .op OP_1NEGATE
  else .push (encodeNum i)

/-! ### Shard splitter (bitcoin-splitter/src/split/core.rs) -/

/-- Optimal script size used by `default_split`. -/
def DEFAULT_SCRIPT_SIZE : Nat := 7000

/-- Maximum script size in bytes allowed by the Bitcoin network. -/
def MAX_SCRIPT_SIZE : Nat := 50000

/-- Cost factor of intermediate states in the complexity index. -/
def STACK_SIZE_INDEX : Nat := 1000

/-- Type of the split. -/
inductive SplitType where
  | byInstructions
  | byBytes
deriving DecidableEq, Repr

/-- Encoded byte length of one instruction: one byte per opcode; pushes
carry a 1, 2, 3 or 5 byte length prefix (`Script::len`). -/
def instrLen : Instr → Nat
  | .op _ => 1
  | .push d =>
    if d.length ≤ 75 then 1 + d.length
    else if d.length ≤ 255 then 2 + d.length
    else if d.length ≤ 65535 then 3 + d.length
    else 5 + d.length

/-- Encoded byte length of a script. -/
def scriptLen (s : Script) : Nat := (s.map instrLen).sum

/-- Byte serialization of one instruction. -/
def encodeInstr : Instr → List Nat
  | .op c => [c]
  | .push d =>
    (if d.length ≤ 75 then [d.length]
     else if d.length ≤ 255 then [0x4c, d.length]
     else if d.length ≤ 65535 then [0x4d, d.length % 256, d.length / 256]
     else [0x4e, d.length % 256, d.length / 256 % 256,
           d.length / 256 / 256 % 256, d.length / 256 / 256 / 256]) ++ d

/-- Byte serialization of a script. -/
def encodeScript (s : Script) : List Nat := (s.map encodeInstr).flatten

/-- Is the instruction `OP_IF` or `OP_NOTIF`? -/
def isCondOpen : Instr → Bool
  | .op c => (c == OP_IF) || (c == OP_NOTIF)
  | .push _ => false

/-- Is the instruction `OP_ENDIF`? -/
def isCondClose : Instr → Bool
  | .op c => c == OP_ENDIF
  | .push _ => false

/-- Number of `OP_IF`/`OP_NOTIF` instructions in a script. -/
def opens (s : Script) : Nat := (s.filter isCondOpen).length

/-- Number of `OP_ENDIF` instructions in a script. -/
def closes (s : Script) : Nat := (s.filter isCondClose).length

/-- State of the `split_into_shards` loop.  The source keeps one growing
`Vec<Script>` whose last element is the shard being filled; here `done`
holds the sealed shards and `cur` that last, still-growing shard. -/
structure SplitState where
  done : List Script
  cur : Script
  ifs : Nat
  endifs : Nat
deriving DecidableEq, Repr

/-- Cost of the current shard after appending the instruction with
global index `iid`: `instruction_id % chunk_size + 1` in
`ByInstructions` mode, the shard's byte length in `ByBytes` mode. -/
def shardCost (t : SplitType) (chunk : Nat) (iid : Nat) (cur : Script) : Nat :=
  match t with
  | .byInstructions => iid % chunk + 1
  | .byBytes => scriptLen cur

/-- One iteration of the `split_into_shards` loop: push the instruction,
count conditionals, seal the shard when the cost reaches `chunk` and the
conditional counters balance, then assert the size bound (`none` models
the `assert!` panic). -/
def splitStep (chunk : Nat) (t : SplitType) (st : SplitState)
    (iid : Nat) (ins : Instr) : Option SplitState :=
  let cur := st.cur ++ [ins]
  let cost := shardCost t chunk iid cur
  let ifs := st.ifs + (if isCondOpen ins then 1 else 0)
  let endifs := st.endifs + (if isCondClose ins then 1 else 0)
  let st2 : SplitState :=
    if chunk ≤ cost ∧ ifs = endifs then ⟨st.done ++ [cur], [], 0, 0⟩
    else ⟨st.done, cur, ifs, endifs⟩
  if cost ≤ MAX_SCRIPT_SIZE then some st2 else none

/-- The `split_into_shards` loop over the enumerated instructions. -/
def splitFold (chunk : Nat) (t : SplitType) :
    SplitState → Nat → List Instr → Option SplitState
  | st, _, [] => some st
  | st, iid, ins :: rest =>
    match splitStep chunk t st iid ins with
    | some st2 => splitFold chunk t st2 (iid + 1) rest
    | none => none

/-- Splits the given script into smaller parts
(`split_into_shards` of bitcoin-splitter/src/split/core.rs).
`none` models the fatal `assert!` on the size bound. -/
def split_into_shards (s : Script) (chunk : Nat) (t : SplitType) :
    Option (List Script) :=
  (splitFold chunk t ⟨[], [], 0, 0⟩ 0 s).map fun st => st.done ++ [st.cur]

/-! ### Intermediate states (bitcoin-splitter/src/split/intermediate_state.rs) -/

/-- Stack and altstack captured after executing a shard.  The head of
each list is the top of the corresponding stack. -/
structure IntermediateState where
  stack : List Item
  altstack : List Item
deriving DecidableEq, Repr

/-- Script that pushes all elements of a captured stack, bottom first
(`stack_to_script` of bitcoin-utils). -/
def stack_to_script (s : List Item) : Script := s.reverse.map Instr.push

/-- The permutation loop of `inject_script`:
`for i in (0..n).rev() { {i} OP_ROLL OP_TOALTSTACK }`. -/
def rollToAlt : Nat → Script
  | 0 => []
  | k + 1 => [pushInt (k : Int), .op OP_ROLL, .op OP_TOALTSTACK] ++ rollToAlt k

/-- Script that pushes all elements (stack and altstack) to the
corresponding stacks (`IntermediateState::inject_script`). -/
def IntermediateState.inject_script (z : IntermediateState) : Script :=
  (if z.stack.isEmpty then [] else stack_to_script z.stack) ++
  (if z.altstack.isEmpty then []
   else stack_to_script z.altstack ++ rollToAlt z.altstack.length)

/-- Executes `input` followed by `script` and captures the resulting
stacks (`IntermediateState::from_input_script`).  `ex` abstracts the
external `execute_script`, which returns the stacks even on a VM halt. -/
def IntermediateState.from_input_script (ex : Script → IntermediateState)
    (input s : Script) : IntermediateState :=
  ex (input ++ s)

/-- Executes a shard on top of the previous intermediate result
(`IntermediateState::from_intermediate_result`). -/
def IntermediateState.from_intermediate_result (ex : Script → IntermediateState)
    (z : IntermediateState) (s : Script) : IntermediateState :=
  IntermediateState.from_input_script ex z.inject_script s

/-- Result of splitting a script (`SplitResult`). -/
structure SplitResult where
  shards : List Script
  intermediate_states : List IntermediateState

/-- The materialization loop of `naive_split`: each remaining shard is
executed on the previous state's inject script. -/
def materializeStates (ex : Script → IntermediateState)
    (z : IntermediateState) : List Script → List IntermediateState
  | [] => []
  | sh :: r =>
    let z2 := IntermediateState.from_intermediate_result ex z sh
    z2 :: materializeStates ex z2 r

/-- Naive split of the script into smaller parts (`naive_split`):
split into shards, then execute them in sequence recording every
intermediate state.  `none` propagates the splitter's fatal assert. -/
def naive_split (ex : Script → IntermediateState) (input script : Script)
    (t : SplitType) (chunk : Nat) : Option SplitResult :=
  (split_into_shards script chunk t).map fun shards =>
    match shards with
    | [] => ⟨[], []⟩
    | s0 :: rest =>
      let z0 := IntermediateState.from_input_script ex input s0
      ⟨s0 :: rest, z0 :: materializeStates ex z0 rest⟩


/-- A 520-byte data push (the largest element a script may push). -/
def bigPush : Instr := .push (List.replicate 520 0)

/-- One hundred 520-byte pushes: 52300 encoded bytes, above
`MAX_SCRIPT_SIZE`. -/
def oversizeScript : Script := List.replicate 100 bigPush


/-- A trivial stack oracle used to instantiate abstract-execution
statements on concrete inputs. -/
def exTriv : Script → IntermediateState := fun _ => ⟨[], []⟩

/-- A concrete `naive_split` result used by closed witnesses. -/
def naiveR : SplitResult :=
  ⟨[[.op OP_DUP], []],
   IntermediateState.from_input_script exTriv [] [.op OP_DUP] ::
     materializeStates exTriv
       (IntermediateState.from_input_script exTriv [] [.op OP_DUP]) [[]]⟩


/-- A concrete injective byte-string function used to instantiate the
abstract `Hash160` oracle in closed statements. -/
def consHash : Item → Item := fun l => 0 :: l

/-! ### Winternitz one-time signatures (bitcoin-winternitz/src/u32.rs) -/

/-- Fixed digit bound `d = 15`. -/
def D : Nat := 15

/-- Bits per digit: `(D + 1).ilog2()`, i.e. 4. -/
def BITS_PER_DIGIT : Nat := 4

/-- Number of bits in a message. -/
def V : Nat := 31

/-- Message digits: `V.div_ceil(BITS_PER_DIGIT) = 8`. -/
def N0 : Nat := (V + BITS_PER_DIGIT - 1) / BITS_PER_DIGIT

/-- Checksum digits: `(D * N0).ilog(D + 1) + 1`, i.e. 2. -/
def N1 : Nat := 2

/-- Total number of digits. -/
def N : Nat := N0 + N1

/-- The digit loop of `Message::from_u32`: digit `i` is
`(msg >> 4*i) & 0xF`, embedded as mod/div arithmetic. -/
def msgDigits : Nat → Nat → List Nat
  | 0, _ => []
  | k + 1, m => (m % 16) :: msgDigits k (m / 16)

/-- `Message::from_u32`: the `N0` message digits followed by the two
base-16 digits of the checksum `D*N0 - sum` (the `u8` arithmetic of the
source cannot underflow: the digit sum is at most `D*N0 = 120`). -/
def from_u32 (m : Nat) : List Nat :=
  let buf := msgDigits N0 m
  let checksum := D * N0 - buf.sum
  buf ++ [checksum % 16, checksum / 16]

/-- A Winternitz secret key: one hash-sized secret per digit position. -/
abbrev SecretKey := List Item

/-- `SecretKey::public_key`: hash every chunk `D` times.  `h` is the
external `Hash160`. -/
def public_key (h : Item → Item) (sk : SecretKey) : List Item :=
  sk.map fun s => h^[D] s

/-- `SecretKey::sign`: hash chunk `j` exactly `digit j` times, keeping
the digit. -/
def sign (h : Item → Item) (sk : SecretKey) (msg : List Nat) :
    List (Nat × Item) :=
  List.zipWith (fun s d => (d, h^[d] s)) sk msg

/-- `PublicKey::verify`: rehash each signature chunk `D - digit` times
(digit read from the message) and compare with the public-key chunk.
The Rust `D - times` is a `usize` subtraction that panics for digits
above `D`; truncated subtraction matches it on all digits `≤ D`, the
only digits a `Message` can hold. -/
def verify (h : Item → Item) (pk : List Item) (msg : List Nat)
    (sig : List (Nat × Item)) : Bool :=
  (List.zip pk (List.zip msg sig)).all fun p =>
    h^[D - p.2.1] p.2.2.2 == p.1

/-- `Signature::to_script_sig`: for each digit from most significant
down, push the signature chunk then the digit. -/
def to_script_sig (sig : List (Nat × Item)) : Script :=
  (sig.reverse.map fun p => [Instr.push p.2, pushInt (p.1 : Int)]).flatten

/-- One digit block of `checksig_verify_script`: clamp the digit with
`{D} OP_MIN`, stash two copies, hash the signature chunk `D` times
keeping all intermediate hashes, pick the one at the digit's offset,
compare with the hard-coded public-key chunk, drop the chain. -/
def digitBlock (pkj : Item) : Script :=
  [pushInt (D : Int), .op OP_MIN, .op OP_DUP, .op OP_TOALTSTACK,
   .op OP_TOALTSTACK] ++
  (List.replicate D [Instr.op OP_DUP, Instr.op OP_HASH160]).flatten ++
  [.op OP_FROMALTSTACK, .op OP_PICK, .push pkj, .op OP_EQUALVERIFY] ++
  (List.replicate ((D + 1) / 2) [Instr.op OP_2DROP]).flatten

/-- The checksum phase of `checksig_verify_script`: sum the signed
checksum digits (base-16 weighted), recompute the checksum from the
message digits via the altstack-popping idiom, and assert equality. -/
def checksumScript : Script :=
  [.op OP_FROMALTSTACK] ++
  (List.replicate (N1 - 1)
    ((List.replicate BITS_PER_DIGIT [Instr.op OP_DUP, Instr.op OP_ADD]).flatten ++
     [Instr.op OP_FROMALTSTACK, Instr.op OP_ADD])).flatten ++
  [.op OP_FROMALTSTACK, .op OP_DUP, .op OP_NEGATE] ++
  (List.replicate (N0 - 1)
    [Instr.op OP_FROMALTSTACK, Instr.op OP_TUCK, Instr.op OP_SUB]).flatten ++
  [pushInt ((D * N0 : Nat) : Int), .op OP_ADD,
   pushInt ((N0 + 1 : Nat) : Int), .op OP_ROLL, .op OP_EQUALVERIFY]

/-- `checksig_verify_script(public_key)`: one digit block per public-key
chunk (digit index 0 first), then the checksum phase. -/
def checksig_verify_script (pk : List Item) : Script :=
  (pk.map digitBlock).flatten ++ checksumScript

/-- `Message::recovery_script`: rebuild the u32 from the `N0` digits
left on the stack (least significant on top) with shift-by-doubling. -/
def recovery_script : Script :=
  ((List.range N0).map fun i =>
    (List.replicate (4 * i) [Instr.op OP_DUP, Instr.op OP_ADD]).flatten ++
    [Instr.op OP_TOALTSTACK]).flatten ++
  [.op OP_FROMALTSTACK] ++
  (List.replicate (N0 - 1) [Instr.op OP_FROMALTSTACK, Instr.op OP_ADD]).flatten

/-- The in-VM verification path of C6: push the signature with
`to_script_sig`, then run `checksig_verify_script`.  The fragment
succeeds when no opcode errors, i.e. all its `OP_EQUALVERIFY`s pass. -/
def inVMVerifies (h : Item → Item) (pk : List Item)
    (sig : List (Nat × Item)) : Bool :=
  (execScript h ⟨[], []⟩ (to_script_sig sig ++ checksig_verify_script pk)).isSome

/-! ### Signed states and the disprove builder (core/src/disprove) -/

/-- Little-endian u32 limbs of a serialized byte string, 4 bytes per
limb, zero-padded tail (`bytes_to_u32_array`). -/
def limbsOfBytesF : Nat → List Nat → List Nat
  | 0, _ => []
  | fuel + 1, l => if l = [] then [] else leNat (l.take 4) :: limbsOfBytesF fuel (l.drop 4)

/-- Little-endian u32 limbs, wrapper over the fuel-indexed helper:
`l.length` steps always suffice since each step drops four bytes. -/
def limbsOfBytes (l : List Nat) : List Nat := limbsOfBytesF l.length l

/-- Modelled from the spec: the byte serialization of one stack item by
the external `bitcoin_scriptexec::Stack::serialize_to_bytes` (spec
section 9: items are re-serialized as 4-byte little-endian segments
with a zero-padded tail, a 5-byte item becoming two u32 limbs; the
repo's `test_zero_stack_sign_and_verify` fixes the empty item to a
single zero limb). -/
def limbsOfItem (it : Item) : List Nat :=
  if it = [] then [0] else limbsOfBytes it

/-- `IntermediateState::to_bytes().stack_as_u32()`: u32 limbs of a
captured stack, bottom element first (the capture lists are top-first
here, hence the reverse). -/
def stackAsU32 (s : List Item) : List Nat :=
  (s.reverse.map limbsOfItem).flatten

/-- One signed u32 stack element (`SignedStackElement`): the value plus
the per-digit secret key that signs it.  The rng draw of the source is
replaced by an explicit key. -/
structure SignedStackElement where
  stack_element : Nat
  secret_key : SecretKey

/-- The public key of a signed element. -/
def SignedStackElement.publicKey (h : Item → Item)
    (e : SignedStackElement) : List Item :=
  public_key h e.secret_key

/-- The signature of a signed element. -/
def SignedStackElement.signature (h : Item → Item)
    (e : SignedStackElement) : List (Nat × Item) :=
  sign h e.secret_key (from_u32 e.stack_element)

/-- `SignedIntermediateState`: signed limbs of the main and alt stacks,
in the bottom-first limb order of the source vectors. -/
structure SignedIntermediateState where
  stack : List SignedStackElement
  altstack : List SignedStackElement

/-- `SignedIntermediateState::sign`, with the source's per-element rng
draws replaced by key supplies `ks`/`ka` (one secret key per limb
index).  The source also asserts every limb is at most `2^31 - 1`;
theorems about honest runs carry that bound as a hypothesis. -/
def signState (ks ka : Nat → SecretKey) (z : IntermediateState) :
    SignedIntermediateState :=
  ⟨(stackAsU32 z.stack).enum.map fun p => ⟨p.2, ks p.1⟩,
   (stackAsU32 z.altstack).enum.map fun p => ⟨p.2, ka p.1⟩⟩

/-- `SignedIntermediateState::total_len`. -/
def SignedIntermediateState.total_len (st : SignedIntermediateState) : Nat :=
  st.stack.length + st.altstack.length

/-- `SignedIntermediateState::witness_script`: signature pushes for the
stack limbs in order, then for the altstack limbs in reverse. -/
def witness_script (h : Item → Item) (st : SignedIntermediateState) : Script :=
  (st.stack.map fun e => to_script_sig (e.signature h)).flatten ++
  (st.altstack.reverse.map fun e => to_script_sig (e.signature h)).flatten

/-- The verify-and-recover-and-stash block `verification_script_toaltstack`
emits per element. -/
def itemVerify (h : Item → Item) (e : SignedStackElement) : Script :=
  checksig_verify_script (e.publicKey h) ++ recovery_script ++
    [.op OP_TOALTSTACK]

/-- `SignedIntermediateState::verification_script_toaltstack`. -/
def verification_script_toaltstack (h : Item → Item)
    (st : SignedIntermediateState) : Script :=
  (st.altstack.map (itemVerify h)).flatten ++
  (st.stack.reverse.map (itemVerify h)).flatten

/-- `SignedIntermediateState::verification_script_fromaltstack`. -/
def verification_script_fromaltstack (st : SignedIntermediateState) : Script :=
  List.replicate st.stack.length (.op OP_FROMALTSTACK)

/-- `SignedIntermediateState::verification_script`. -/
def verification_script (h : Item → Item)
    (st : SignedIntermediateState) : Script :=
  verification_script_toaltstack h st ++ verification_script_fromaltstack st

/-- `OP_LONGNOTEQUAL` from core/src/utils.rs — the same function the
disprove builder imports from the bitcoin-utils `comparison` module,
whose file is not among the sources; it matches the spec's
`LONG_NOT_EQUAL(l)` description.  (`OP_FALSE` assembles to the opcode
byte 0x00, which parses as an empty push.) -/
def OP_LONGNOTEQUAL (length : Nat) : Script :=
  if length = 0 then [.push []]
  else
    ((List.range length).reverse.map fun j =>
      [pushInt ((j + 1 : Nat) : Int), Instr.op OP_ROLL, Instr.op OP_EQUAL,
       Instr.op OP_NOT, Instr.op OP_TOALTSTACK]).flatten ++
    [.op OP_FROMALTSTACK] ++
    (List.replicate (length - 1)
      [Instr.op OP_FROMALTSTACK, Instr.op OP_BOOLOR]).flatten

/-- `DisproveScript`: the witness script and the locking script. -/
structure DisproveScript where
  script_witness : Script
  script_pubkey : Script

/-- `DisproveScript::new` (core/src/disprove/mod.rs), with the rng
replaced by explicit key supplies for the limbs of the `from` state
(`kFS`/`kFA`) and of the `to` state (`kTS`/`kTA`). -/
def DisproveScript.new (h : Item → Item) (kFS kFA kTS kTA : Nat → SecretKey)
    (zFrom zTo : IntermediateState) (f : Script) : DisproveScript :=
  let from_signed := signState kFS kFA zFrom
  let to_signed := signState kTS kTA zTo
  ⟨witness_script h from_signed ++ witness_script h to_signed,
   verification_script_toaltstack h to_signed ++
   verification_script h from_signed ++
   f ++
   List.replicate to_signed.altstack.length (.op OP_FROMALTSTACK) ++
   verification_script_fromaltstack to_signed ++
   ((List.range to_signed.stack.length).map fun _ =>
     [pushInt ((to_signed.total_len + to_signed.stack.length - 1 : Nat) : Int),
      Instr.op OP_ROLL]).flatten ++
   OP_LONGNOTEQUAL to_signed.stack.length ++
   List.replicate to_signed.altstack.length (.op OP_FROMALTSTACK) ++
   ((List.range to_signed.altstack.length).map fun _ =>
     [pushInt ((2 * to_signed.altstack.length : Nat) : Int),
      Instr.op OP_ROLL]).flatten ++
   OP_LONGNOTEQUAL to_signed.altstack.length ++
   [.op OP_BOOLOR]⟩

/-- The `ClassifyContext::TapScript` push-number classification together
with the byte vector `witness_elements` builds for it
(`num.to_le_bytes()` with zero bytes filtered out). -/
def pushNumElement (c : Nat) : Option (List Nat) :=
  if c = OP_1NEGATE then some [255, 255, 255, 255]
  else if OP_PUSHNUM_1 ≤ c ∧ c ≤ OP_PUSHNUM_16 then some [c - 80]
  else none

/-- `DisproveScript::witness_elements`: one byte vector per instruction;
`none` models the `unreachable!` on a non-push opcode. -/
def witness_elements : Script → Option (List Item)
  | [] => some []
  | .push d :: r => (witness_elements r).map (d :: ·)
  | .op c :: r =>
    match pushNumElement c with
    | some e => (witness_elements r).map (e :: ·)
    | none => none

/-- Modelled from the spec: overall run success per section 6 — the VM
completes without error and leaves exactly one truthy element on the
main stack (the Tapscript final-stack rule the repo's tests rely on). -/
def runSucceeds (h : Item → Item) (s : Script) : Bool :=
  match execScript h ⟨[], []⟩ s with
  | some v =>
    match v.main with
    | [x] => itemTruthy x
    | _ => false
  | none => false


/-- The byte vectors a signed state's witness script pushes, in push
order: per digit pair the signature chunk then the digit's encoding. -/
def sigElements (h : Item → Item) (st : SignedIntermediateState) : List Item :=
  ((st.stack.map fun e => ((e.signature h).reverse.map fun p =>
      [p.2, encodeNum (p.1 : Int)]).flatten).flatten) ++
  ((st.altstack.reverse.map fun e => ((e.signature h).reverse.map fun p =>
      [p.2, encodeNum (p.1 : Int)]).flatten).flatten)


/-- The stack segment (top first) that `to_script_sig` leaves: for each
digit pair in order, the encoded digit on top of the signature chunk. -/
def wStackOfPairs (sig : List (Nat × Item)) : List Item :=
  (sig.map fun p => [encodeNum (p.1 : Int), p.2]).flatten

/-- The hash chain a digit block leaves on the stack, top first:
`[h^k s, ..., h s, s]`. -/
def chainList (h : Item → Item) : Nat → Item → List Item
  | 0, s => [s]
  | k + 1, s => h^[k + 1] s :: chainList h k s

/-- An item in canonical single-limb form: the minimal encoding of a
number below `2^31` (`MAX_STACK_ELEMENT_VALUE`), the only item shape
whose serialization is a single u32 limb that the signer re-encodes to
the same item. -/
def canonicalItem (it : Item) : Prop :=
  ∃ v : Nat, v < 2 ^ 31 ∧ it = encodeNum ((v : Nat) : Int)

-- ===== THEOREMS =====


@[simp] theorem leNat_nil : leNat [] = 0 := rfl

@[simp] theorem leNat_cons (b : Nat) (bs : Item) :
    leNat (b :: bs) = b + 256 * leNat bs := rfl

theorem leNat_append_single (xs : Item) (x : Nat) :
    leNat (xs ++ [x]) = leNat xs + x * 256 ^ xs.length := by
  induction xs with
  | nil => simp [leNat]
  | cons b bs ih => simp [leNat, ih, pow_succ]; ring

theorem natBytesF_congr : ∀ (f g n : Nat), n ≤ f → n ≤ g →
    natBytesF f n = natBytesF g n := by
  intro f
  induction f with
  | zero =>
    intro g n hf _
    have hn : n = 0 := by omega
    cases g <;> simp [natBytesF, hn]
  | succ f ih =>
    intro g n hf hg
    cases g with
    | zero =>
      have hn : n = 0 := by omega
      simp [natBytesF, hn]
    | succ g =>
      by_cases hn : n = 0
      · simp [natBytesF, hn]
      · simp only [natBytesF, if_neg hn]
        have hlt : n / 256 < n := Nat.div_lt_self (Nat.pos_of_ne_zero hn) (by norm_num)
        rw [ih g (n / 256) (by omega) (by omega)]

theorem natBytes_eq (n : Nat) :
    natBytes n = if h : n = 0 then [] else (n % 256) :: natBytes (n / 256) := by
  by_cases hn : n = 0
  · simp [natBytes, hn, natBytesF]
  · obtain ⟨m, rfl⟩ : ∃ m, n = m + 1 := ⟨n - 1, by omega⟩
    simp only [natBytes, natBytesF, if_neg hn, dif_neg hn]
    have hlt : (m + 1) / 256 < m + 1 :=
      Nat.div_lt_self (Nat.pos_of_ne_zero hn) (by norm_num)
    rw [natBytesF_congr m ((m + 1) / 256) ((m + 1) / 256) (by omega) (by omega)]

theorem limbsOfBytesF_congr : ∀ (f g : Nat) (l : List Nat),
    l.length ≤ f → l.length ≤ g → limbsOfBytesF f l = limbsOfBytesF g l := by
  intro f
  induction f with
  | zero =>
    intro g l hf _
    have hl : l = [] := List.eq_nil_of_length_eq_zero (by omega)
    cases g <;> simp [limbsOfBytesF, hl]
  | succ f ih =>
    intro g l hf hg
    cases g with
    | zero =>
      have hl : l = [] := List.eq_nil_of_length_eq_zero (by omega)
      simp [limbsOfBytesF, hl]
    | succ g =>
      by_cases hl : l = []
      · simp [limbsOfBytesF, hl]
      · simp only [limbsOfBytesF, if_neg hl]
        have hlen : l.length ≠ 0 := fun hz => hl (List.eq_nil_of_length_eq_zero hz)
        have hdrop : (l.drop 4).length = l.length - 4 := List.length_drop 4 l
        rw [ih g (l.drop 4) (by omega) (by omega)]

theorem limbsOfBytes_eq (l : List Nat) :
    limbsOfBytes l
      = if l = [] then [] else leNat (l.take 4) :: limbsOfBytes (l.drop 4) := by
  by_cases hl : l = []
  · simp [limbsOfBytes, hl, limbsOfBytesF]
  · obtain ⟨a, l2, rfl⟩ : ∃ a l2, l = a :: l2 := by
      cases l with
      | nil => exact absurd rfl hl
      | cons a l2 => exact ⟨a, l2, rfl⟩
    simp only [limbsOfBytes, List.length_cons, limbsOfBytesF, if_neg hl]
    have hdrop : ((a :: l2).drop 4).length = (a :: l2).length - 4 :=
      List.length_drop 4 (a :: l2)
    rw [limbsOfBytesF_congr l2.length ((a :: l2).drop 4).length ((a :: l2).drop 4)
      (by rw [hdrop, List.length_cons]; omega) (by omega)]

theorem leNat_natBytes (n : Nat) : leNat (natBytes n) = n := by
  induction n using Nat.strong_induction_on with
  | _ n ih =>
    rw [natBytes_eq]
    by_cases h : n = 0
    · simp [h]
    · simp only [h, dite_false, leNat_cons]
      rw [ih (n / 256) (Nat.div_lt_self (Nat.pos_of_ne_zero h) (by norm_num))]
      omega

theorem natBytes_bytes_lt (n : Nat) : ∀ b ∈ natBytes n, b < 256 := by
  induction n using Nat.strong_induction_on with
  | _ n ih =>
    rw [natBytes_eq]
    by_cases h : n = 0
    · simp [h]
    · simp only [h, dite_false, List.mem_cons]
      rintro b (rfl | hb)
      · exact Nat.mod_lt _ (by norm_num)
      · exact ih (n / 256) (Nat.div_lt_self (Nat.pos_of_ne_zero h) (by norm_num)) b hb

theorem natBytes_ne_nil (n : Nat) (h : n ≠ 0) : natBytes n ≠ [] := by
  rw [natBytes_eq]; simp [h]

theorem natBytes_eq_nil (n : Nat) (h : n = 0) : natBytes n = [] := by
  rw [natBytes_eq]; simp [h]

theorem exists_concat {α : Type _} (l : List α) (h : l ≠ []) :
    ∃ xs x, l = xs ++ [x] :=
  ⟨l.dropLast, l.getLast h, (List.dropLast_append_getLast h).symm⟩

/-- A byte string with all bytes below 256 has value below `256 ^ length`. -/
theorem leNat_lt (l : Item) (h : ∀ b ∈ l, b < 256) : leNat l < 256 ^ l.length := by
  induction l with
  | nil => simp [leNat]
  | cons b bs ih =>
    have hb : b < 256 := h b (by simp)
    have hbs := ih (fun x hx => h x (by simp [hx]))
    simp only [leNat_cons, List.length_cons, pow_succ]
    calc b + 256 * leNat bs < 256 + 256 * leNat bs := by omega
    _ ≤ 256 * 256 ^ bs.length := by nlinarith
    _ = 256 ^ bs.length * 256 := by ring

theorem leNat_lt_half (xs : Item) (x : Nat) (hb : ∀ b ∈ xs, b < 256)
    (hlast : x < 128) : leNat (xs ++ [x]) < 2 ^ (8 * (xs ++ [x]).length - 1) := by
  rw [leNat_append_single]
  have hxs : leNat xs < 256 ^ xs.length := leNat_lt xs hb
  have hlen : 8 * (xs ++ [x]).length - 1 = 8 * xs.length + 7 := by
    simp only [List.length_append, List.length_cons, List.length_nil]
    omega
  rw [hlen]
  have h256 : (256 : Nat) ^ xs.length = 2 ^ (8 * xs.length) := by
    rw [show (256 : Nat) = 2 ^ 8 by norm_num, ← pow_mul]
  have hpow : (2 : Nat) ^ (8 * xs.length + 7) = 128 * 2 ^ (8 * xs.length) := by
    rw [pow_add]; ring
  rw [hpow, ← h256]
  nlinarith [hxs]

theorem pow_half (k : Nat) : 2 ^ (8 * (k + 1) - 1) = 128 * 256 ^ k := by
  have : 8 * (k + 1) - 1 = 8 * k + 7 := by omega
  rw [this, pow_add, show (256 : Nat) = 2 ^ 8 by norm_num, ← pow_mul]
  ring

theorem decodeNum_of_ne_nil (l : Item) (h : l ≠ []) :
    decodeNum l =
      if leNat l < 2 ^ (8 * l.length - 1) then ((leNat l : Nat) : Int)
      else -((leNat l - 2 ^ (8 * l.length - 1) : Nat) : Int) := by
  obtain ⟨c, cs, rfl⟩ := List.exists_cons_of_ne_nil h
  rfl

theorem decode_encode (i : Int) : decodeNum (encodeNum i) = i := by
  by_cases h0 : i = 0
  · simp [h0, encodeNum, decodeNum]
  · have hna : i.natAbs ≠ 0 := fun h => h0 (Int.natAbs_eq_zero.mp h)
    have hne := natBytes_ne_nil i.natAbs hna
    have hbytes := natBytes_bytes_lt i.natAbs
    have hval := leNat_natBytes i.natAbs
    obtain ⟨xs, x, hx⟩ := exists_concat _ hne
    have hx256 : x < 256 := hbytes x (by rw [hx]; simp)
    have hxsb : ∀ b ∈ xs, b < 256 := fun b hb => hbytes b (by rw [hx]; simp [hb])
    rw [encodeNum, if_neg h0, hx]
    simp only [List.getLast?_concat]
    rcases lt_or_ge x 128 with hsmall | hbig
    · rw [if_pos hsmall]
      by_cases hneg : i < 0
      · -- negative, sign bit fits into the last magnitude byte
        rw [if_pos hneg, List.dropLast_concat]
        rw [decodeNum_of_ne_nil _ (by simp)]
        have hlen : (xs ++ [x + 128]).length = xs.length + 1 := by simp
        rw [hlen, pow_half, leNat_append_single]
        have hm : leNat xs + x * 256 ^ xs.length = i.natAbs := by
          rw [← leNat_append_single, ← hx, hval]
        have hexp : (x + 128) * 256 ^ xs.length
            = x * 256 ^ xs.length + 128 * 256 ^ xs.length := by ring
        rw [hexp]
        rw [if_neg (by omega)]
        have heq : leNat xs + (x * 256 ^ xs.length + 128 * 256 ^ xs.length)
            - 128 * 256 ^ xs.length = i.natAbs := by omega
        rw [heq]
        omega
      · -- positive, top bit of the last byte clear
        rw [if_neg hneg]
        rw [decodeNum_of_ne_nil _ (by simp)]
        rw [if_pos (leNat_lt_half xs x hxsb hsmall)]
        rw [← hx, hval]
        omega
    · rw [if_neg (by omega)]
      -- an extra sign byte is appended
      rw [decodeNum_of_ne_nil _ (by simp)]
      have hval2 : leNat (xs ++ [x]) = i.natAbs := by rw [← hx]; exact hval
      have hE : 0 < 256 ^ (xs ++ [x]).length := pow_pos (by norm_num) _
      have habs : i.natAbs < 256 ^ (xs ++ [x]).length := by
        rw [← hval2]
        exact leNat_lt _ (fun b hb => hbytes b (hx ▸ hb))
      have hlen : (xs ++ [x] ++ [if i < 0 then 128 else 0]).length
          = (xs ++ [x]).length + 1 := by simp
      rw [hlen, pow_half, leNat_append_single, hval2]
      by_cases hneg : i < 0
      · rw [if_pos hneg]
        rw [if_neg (by omega)]
        have heq : i.natAbs + 128 * 256 ^ (xs ++ [x]).length
            - 128 * 256 ^ (xs ++ [x]).length = i.natAbs := by omega
        rw [heq]
        omega
      · rw [if_neg hneg, zero_mul, add_zero]
        rw [if_pos (by omega)]
        omega

theorem natBytes_length_le (n k : Nat) (h : n < 256 ^ k) : (natBytes n).length ≤ k := by
  induction k generalizing n with
  | zero =>
    have : n = 0 := by simpa using h
    simp [this, natBytes_eq_nil]
  | succ k ih =>
    rw [natBytes_eq]
    by_cases hn : n = 0
    · simp [hn]
    · simp only [hn, dite_false, List.length_cons]
      have : n / 256 < 256 ^ k := by
        rw [Nat.div_lt_iff_lt_mul (by norm_num)]
        calc n < 256 ^ (k + 1) := h
        _ = 256 ^ k * 256 := by ring
      exact Nat.succ_le_succ (ih _ this)

/-- A number of magnitude below `2 ^ 31` has a CScriptNum encoding of at
most 4 bytes, so the VM accepts it as an arithmetic operand. -/
theorem encodeNum_length (i : Int) (h : i.natAbs < 2 ^ 31) :
    (encodeNum i).length ≤ 4 := by
  by_cases h0 : i = 0
  · simp [h0, encodeNum]
  · have hna : i.natAbs ≠ 0 := fun hh => h0 (Int.natAbs_eq_zero.mp hh)
    have hne := natBytes_ne_nil i.natAbs hna
    have hval := leNat_natBytes i.natAbs
    obtain ⟨xs, x, hx⟩ := exists_concat _ hne
    have hlen4 : (natBytes i.natAbs).length ≤ 4 :=
      natBytes_length_le _ 4 (by norm_num at h ⊢; omega)
    rw [encodeNum, if_neg h0, hx]
    simp only [List.getLast?_concat]
    rcases lt_or_ge x 128 with hsmall | hbig
    · rw [if_pos hsmall]
      by_cases hneg : i < 0
      · rw [if_pos hneg, List.dropLast_concat]
        have : (xs ++ [x]).length ≤ 4 := by rw [← hx]; exact hlen4
        simpa using this
      · rw [if_neg hneg, ← hx]; exact hlen4
    · rw [if_neg (by omega)]
      have hxs3 : xs.length ≤ 2 := by
        by_contra hc
        push_neg at hc
        have hge : 128 * 256 ^ xs.length ≤ leNat (xs ++ [x]) := by
          rw [leNat_append_single]
          have := Nat.mul_le_mul_right (256 ^ xs.length) hbig
          omega
        have : 128 * 256 ^ 3 ≤ 128 * 256 ^ xs.length := by
          have : (256 : Nat) ^ 3 ≤ 256 ^ xs.length :=
            Nat.pow_le_pow_right (by norm_num) (by omega)
          omega
        rw [← hx, hval] at hge
        norm_num at this h
        omega
      have : (natBytes i.natAbs).length ≤ 3 := by rw [hx]; simp; omega
      simp only [List.length_append, List.length_cons, List.length_nil]
      omega

@[simp] theorem encodeNum_zero : encodeNum 0 = [] := by simp [encodeNum]

/-- Encodings of distinct integers are distinct byte strings. -/
theorem encodeNum_injective : Function.Injective encodeNum := by
  intro a b hab
  have := decode_encode a
  rw [hab, decode_encode b] at this
  omega

@[simp] theorem execScript_nil (h : Item → Item) (v : VM) :
    execScript h v [] = some v := rfl

theorem execScript_cons (h : Item → Item) (v : VM) (i : Instr) (r : Script) :
    execScript h v (i :: r) =
      match execInstr h v i with
      | some v2 => execScript h v2 r
      | none => none := rfl

theorem execScript_cons_some (h : Item → Item) {v v2 : VM} {i : Instr}
    (r : Script) (hi : execInstr h v i = some v2) :
    execScript h v (i :: r) = execScript h v2 r := by
  rw [execScript_cons, hi]

@[simp] theorem execScript_append (h : Item → Item) (v : VM) (s t : Script) :
    execScript h v (s ++ t) = (execScript h v s).bind (fun v2 => execScript h v2 t) := by
  induction s generalizing v with
  | nil => simp
  | cons i r ih =>
    rw [List.cons_append, execScript_cons, execScript_cons]
    cases execInstr h v i with
    | none => rfl
    | some v2 => exact ih v2

theorem execInstr_pushInt (h : Item → Item) (v : VM) (i : Int) :
    execInstr h v (pushInt i) = some ⟨encodeNum i :: v.main, v.alt⟩ := by
  rw [pushInt]
  by_cases h0 : i = 0
  · simp [h0, execInstr]
  · rw [if_neg h0]
    by_cases h16 : 1 ≤ i ∧ i ≤ 16
    · rw [if_pos h16]
      have hlt : 80 + i.toNat ≠ OP_1NEGATE := by
        unfold OP_1NEGATE; omega
      have hrange : OP_PUSHNUM_1 ≤ 80 + i.toNat ∧ 80 + i.toNat ≤ OP_PUSHNUM_16 := by
        unfold OP_PUSHNUM_1 OP_PUSHNUM_16; omega
      rw [execInstr, if_neg hlt, if_pos hrange]
      have : ((80 + i.toNat : Nat) : Int) - 80 = i := by omega
      rw [this]
    · rw [if_neg h16]
      by_cases hm1 : i = -1
      · simp [hm1, execInstr]
      · rw [if_neg hm1]
        rfl

/-! ### Splitter theorems -/

theorem opens_append (a b : Script) : opens (a ++ b) = opens a + opens b := by
  simp [opens, List.filter_append]

theorem closes_append (a b : Script) : closes (a ++ b) = closes a + closes b := by
  simp [closes, List.filter_append]

theorem opens_single (i : Instr) :
    opens [i] = if isCondOpen i then 1 else 0 := by
  simp [opens, List.filter]
  cases hv : isCondOpen i <;> simp [hv]

theorem closes_single (i : Instr) :
    closes [i] = if isCondClose i then 1 else 0 := by
  simp [closes, List.filter]
  cases hv : isCondClose i <;> simp [hv]

theorem encodeScript_flatten (l : List Script) :
    encodeScript l.flatten = (l.map encodeScript).flatten := by
  induction l with
  | nil => rfl
  | cons a r ih => simp [encodeScript, List.map_append] at *; simp [ih]

/-- Invariant of the `split_into_shards` loop: the sealed shards plus
the current one concatenate to the processed prefix, the conditional
counters are exactly the counts in the current shard, and every sealed
shard is balanced. -/
theorem splitFold_inv (chunk : Nat) (t : SplitType) :
    ∀ (rest : List Instr) (st : SplitState) (iid : Nat) (st' : SplitState),
      splitFold chunk t st iid rest = some st' →
      st.ifs = opens st.cur → st.endifs = closes st.cur →
      (∀ sh ∈ st.done, opens sh = closes sh) →
      (st'.done.flatten ++ st'.cur = st.done.flatten ++ st.cur ++ rest ∧
       st'.ifs = opens st'.cur ∧ st'.endifs = closes st'.cur ∧
       ∀ sh ∈ st'.done, opens sh = closes sh) := by
  intro rest
  induction rest with
  | nil =>
    intro st iid st' hf h1 h2 h3
    simp [splitFold] at hf
    subst hf
    exact ⟨by simp, h1, h2, h3⟩
  | cons ins r ih =>
    intro st iid st' hf h1 h2 h3
    rw [splitFold] at hf
    rcases hstep : splitStep chunk t st iid ins with _ | st2
    · rw [hstep] at hf; exact absurd hf (by simp)
    rw [hstep] at hf
    rw [splitStep] at hstep
    by_cases hsz : shardCost t chunk iid (st.cur ++ [ins]) ≤ MAX_SCRIPT_SIZE
    · rw [if_pos hsz] at hstep
      have hopen : opens (st.cur ++ [ins])
          = st.ifs + (if isCondOpen ins then 1 else 0) := by
        rw [opens_append, opens_single, h1]
      have hclose : closes (st.cur ++ [ins])
          = st.endifs + (if isCondClose ins then 1 else 0) := by
        rw [closes_append, closes_single, h2]
      by_cases hseal : chunk ≤ shardCost t chunk iid (st.cur ++ [ins]) ∧
          st.ifs + (if isCondOpen ins then 1 else 0)
            = st.endifs + (if isCondClose ins then 1 else 0)
      · rw [if_pos hseal] at hstep
        injection hstep with hstep
        subst hstep
        obtain ⟨ha, hb, hc, hd⟩ := ih _ (iid + 1) st' hf (by simp [opens])
          (by simp [closes])
          (by
            intro sh hsh
            simp at hsh
            rcases hsh with hsh | hsh
            · exact h3 sh hsh
            · subst hsh
              rw [hopen, hclose, hseal.2])
        refine ⟨?_, hb, hc, hd⟩
        rw [ha]
        simp [List.append_assoc]
      · rw [if_neg hseal] at hstep
        injection hstep with hstep
        subst hstep
        obtain ⟨ha, hb, hc, hd⟩ := ih _ (iid + 1) st' hf
          (by simpa using hopen.symm) (by simpa using hclose.symm)
          (by intro sh hsh; exact h3 sh hsh)
        refine ⟨?_, hb, hc, hd⟩
        rw [ha]
        simp [List.append_assoc]
    · rw [if_neg hsz] at hstep
      exact absurd hstep (by simp)

theorem balanced_flatten (l : List Script)
    (h : ∀ sh ∈ l, opens sh = closes sh) :
    opens l.flatten = closes l.flatten := by
  induction l with
  | nil => rfl
  | cons a r ih =>
    simp only [List.flatten_cons, opens_append, closes_append]
    rw [h a (by simp), ih (fun sh hsh => h sh (by simp [hsh]))]

/-- C2 (amended): for a script whose `OP_IF`/`OP_NOTIF` count equals its
`OP_ENDIF` count, the shards returned by `split_into_shards` concatenate
back to the script (hence byte-for-byte), and every shard is balanced. -/
theorem C2_splitter_soundness (s : Script) (chunk : Nat) (t : SplitType)
    (shards : List Script)
    (hchunk : 100 ≤ chunk) (hmax : chunk ≤ MAX_SCRIPT_SIZE)
    (hbal : opens s = closes s)
    (hsplit : split_into_shards s chunk t = some shards) :
    shards.flatten = s ∧
    (shards.map encodeScript).flatten = encodeScript s ∧
    ∀ sh ∈ shards, opens sh = closes sh := by
  rw [split_into_shards] at hsplit
  rcases hf : splitFold chunk t ⟨[], [], 0, 0⟩ 0 s with _ | st
  · rw [hf] at hsplit; exact absurd hsplit (by simp)
  rw [hf] at hsplit
  rw [show (some st).map (fun st => st.done ++ [st.cur])
      = some (st.done ++ [st.cur]) from rfl] at hsplit
  injection hsplit with hsplit
  subst hsplit
  obtain ⟨ha, hb, hc, hd⟩ := splitFold_inv chunk t s ⟨[], [], 0, 0⟩ 0 st hf
    (by simp [opens]) (by simp [closes]) (by simp)
  simp only [List.flatten_nil, List.nil_append] at ha
  have hflat : (st.done ++ [st.cur]).flatten = s := by
    simp only [List.flatten_append, List.flatten_cons, List.flatten_nil,
      List.append_nil]
    exact ha
  refine ⟨hflat, ?_, ?_⟩
  · rw [← hflat, encodeScript_flatten]
  · intro sh hsh
    simp only [List.mem_append, List.mem_singleton] at hsh
    rcases hsh with hsh | hsh
    · exact hd sh hsh
    · subst hsh
      have hdone : opens st.done.flatten = closes st.done.flatten :=
        balanced_flatten st.done hd
      have hsum : opens st.done.flatten + opens st.cur
          = closes st.done.flatten + closes st.cur := by
        rw [← opens_append, ← closes_append, ha, hbal]
      omega

/-- C2 (counterexample): for the unbalanced script `OP_IF` the returned
single shard has one conditional-open opcode and no conditional-close
opcode, refuting the claim for arbitrary scripts. -/
theorem C2_counterexample :
    split_into_shards [.op OP_IF] 100 .byInstructions = some [[.op OP_IF]] ∧
    ¬ (∀ sh ∈ [[Instr.op OP_IF]], opens sh = closes sh) := by
  constructor
  · rfl
  · decide

/-- Closed instance of `C2_splitter_soundness` at a concrete balanced
script. -/
theorem C2_splitter_soundness_witness :
    ([[Instr.op OP_IF, Instr.op OP_ENDIF]] : List Script).flatten
        = [Instr.op OP_IF, Instr.op OP_ENDIF] ∧
    (([[Instr.op OP_IF, Instr.op OP_ENDIF]] : List Script).map
        encodeScript).flatten
        = encodeScript [Instr.op OP_IF, Instr.op OP_ENDIF] ∧
    ∀ sh ∈ ([[Instr.op OP_IF, Instr.op OP_ENDIF]] : List Script),
      opens sh = closes sh :=
  C2_splitter_soundness [.op OP_IF, .op OP_ENDIF] 100 .byInstructions
    [[.op OP_IF, .op OP_ENDIF]] (by norm_num) (by norm_num [MAX_SCRIPT_SIZE])
    (by decide) (by rfl)

set_option maxRecDepth 100000 in
/-- C7 (code bug): in `ByInstructions` mode the size `assert!` compares
`instruction_id % chunk_size + 1` (an instruction counter) with
`MAX_SCRIPT_SIZE`, not the shard's byte length, so a shard of 52300
encoded bytes is returned without aborting. -/
theorem C7_oversize_shard_not_caught :
    (split_into_shards oversizeScript 100 .byInstructions).map
        (fun l => l.map scriptLen) = some [52300, 0] ∧
    MAX_SCRIPT_SIZE < 52300 := by
  constructor
  · rfl
  · decide

/-- C8 (confirmed): in `ByInstructions` mode one loop iteration never
hits the size assert (for `chunk_size ≤ MAX_SCRIPT_SIZE`), and it seals
the current shard — appending it to the finished list, emptying the
current shard and zeroing both conditional counters — exactly when
`instruction_id % chunk_size + 1 ≥ chunk_size` and the updated `OP_IF`/
`OP_NOTIF` counter equals the updated `OP_ENDIF` counter.  The cost is a
function of the global instruction index `iid`, not of the current
shard's instruction count. -/
theorem C8_byInstructions_seal_iff
    (chunk : Nat) (st : SplitState) (iid : Nat) (ins : Instr)
    (hc : 0 < chunk) (hm : chunk ≤ MAX_SCRIPT_SIZE) :
    ∃ st', splitStep chunk .byInstructions st iid ins = some st' ∧
      ((chunk ≤ iid % chunk + 1 ∧
        st.ifs + (if isCondOpen ins then 1 else 0)
          = st.endifs + (if isCondClose ins then 1 else 0)) ↔
       (st'.done = st.done ++ [st.cur ++ [ins]] ∧ st'.cur = [] ∧
        st'.ifs = 0 ∧ st'.endifs = 0)) := by
  have hcost : shardCost .byInstructions chunk iid (st.cur ++ [ins])
      = iid % chunk + 1 := rfl
  have hsz : shardCost .byInstructions chunk iid (st.cur ++ [ins])
      ≤ MAX_SCRIPT_SIZE := by
    rw [hcost]
    have := Nat.mod_lt iid hc
    omega
  rw [splitStep]
  rw [if_pos hsz]
  by_cases hseal : chunk ≤ shardCost .byInstructions chunk iid (st.cur ++ [ins]) ∧
      st.ifs + (if isCondOpen ins then 1 else 0)
        = st.endifs + (if isCondClose ins then 1 else 0)
  · refine ⟨_, rfl, ?_⟩
    rw [if_pos hseal]
    rw [hcost] at hseal
    simp [hseal]
  · refine ⟨_, rfl, ?_⟩
    rw [if_neg hseal]
    rw [hcost] at hseal
    constructor
    · intro hcond
      exact absurd hcond hseal
    · intro hcond
      have hlen := congrArg List.length hcond.1
      simp at hlen

/-- Closed instance of `C8_byInstructions_seal_iff`. -/
theorem C8_byInstructions_seal_iff_witness :
    ∃ st', splitStep 100 .byInstructions ⟨[], [], 0, 0⟩ 99 bigPush = some st' ∧
      ((100 ≤ 99 % 100 + 1 ∧
        0 + (if isCondOpen bigPush then 1 else 0)
          = 0 + (if isCondClose bigPush then 1 else 0)) ↔
       (st'.done = [] ++ [[] ++ [bigPush]] ∧ st'.cur = [] ∧
        st'.ifs = 0 ∧ st'.endifs = 0)) :=
  C8_byInstructions_seal_iff 100 ⟨[], [], 0, 0⟩ 99 bigPush (by norm_num)
    (by norm_num [MAX_SCRIPT_SIZE])

/-- C9 (confirmed): `split_into_shards` starts from a single empty shard
(an empty script yields exactly `[[]]` for every chunk size and mode),
and if the seal condition fires on the script's final instruction the
returned vector ends with an empty shard, which `naive_split` then
materializes as a shard of its own. -/
theorem C9_empty_shard_behaviour :
    (∀ (chunk : Nat) (t : SplitType),
      split_into_shards [] chunk t = some [[]]) ∧
    split_into_shards [.op OP_DUP] 1 .byInstructions
      = some [[.op OP_DUP], []] ∧
    (∀ (ex : Script → IntermediateState) (input : Script),
      ∃ r, naive_split ex input [.op OP_DUP] .byInstructions 1 = some r ∧
        r.shards = [[.op OP_DUP], []] ∧
        r.intermediate_states.length = 2 ∧
        r.intermediate_states.get? 1 =
          some (IntermediateState.from_intermediate_result ex
            (IntermediateState.from_input_script ex input [.op OP_DUP]) [])) := by
  refine ⟨fun chunk t => rfl, rfl, fun ex input => ⟨_, rfl, rfl, rfl, rfl⟩⟩

theorem materializeStates_length (ex : Script → IntermediateState)
    (rest : List Script) :
    ∀ z, (materializeStates ex z rest).length = rest.length := by
  induction rest with
  | nil => intro z; rfl
  | cons sh r ih => intro z; simp [materializeStates, ih]

theorem materializeStates_get? (ex : Script → IntermediateState) :
    ∀ (rest : List Script) (z : IntermediateState) (i : Nat)
      (zprev zi : IntermediateState) (si : Script),
      (z :: materializeStates ex z rest).get? i = some zprev →
      (z :: materializeStates ex z rest).get? (i + 1) = some zi →
      rest.get? i = some si →
      zi = IntermediateState.from_intermediate_result ex zprev si := by
  intro rest
  induction rest with
  | nil =>
    intro z i zprev zi si _ _ hsi
    simp at hsi
  | cons sh r ih =>
    intro z i zprev zi si hprev hi hsi
    match i with
    | 0 =>
      simp [materializeStates] at hprev hi hsi
      subst hprev; subst hsi; subst hi
      rfl
    | Nat.succ j =>
      simp only [materializeStates] at hprev hi
      exact ih _ j zprev zi si hprev hi (by simpa using hsi)

/-- C3 (confirmed): the `SplitResult` of `naive_split` has as many
intermediate states as shards, its first state is the execution of
`input` followed by the first shard, and every later state is the
execution of the previous state's inject script followed by the
corresponding shard.  `ex` abstracts the external `execute_script`. -/
theorem C3_naive_split_invariants (ex : Script → IntermediateState)
    (input script : Script) (t : SplitType) (chunk : Nat) (r : SplitResult)
    (hr : naive_split ex input script t chunk = some r) :
    r.intermediate_states.length = r.shards.length ∧
    (∀ z0 s0, r.intermediate_states.head? = some z0 → r.shards.head? = some s0 →
       z0 = IntermediateState.from_input_script ex input s0) ∧
    (∀ i zprev zi si,
       r.intermediate_states.get? i = some zprev →
       r.intermediate_states.get? (i + 1) = some zi →
       r.shards.get? (i + 1) = some si →
       zi = IntermediateState.from_intermediate_result ex zprev si) := by
  rw [naive_split, Option.map_eq_some'] at hr
  obtain ⟨shards, _, hr⟩ := hr
  match shards with
  | [] =>
    have hr2 : ((⟨[], []⟩ : SplitResult)) = r := hr
    subst hr2
    refine ⟨rfl, by simp, by simp⟩
  | s0 :: rest =>
    have hr2 : ((⟨s0 :: rest,
        IntermediateState.from_input_script ex input s0 ::
          materializeStates ex
            (IntermediateState.from_input_script ex input s0) rest⟩ :
        SplitResult)) = r := hr
    subst hr2
    refine ⟨by simp [materializeStates_length], ?_, ?_⟩
    · intro z0 t0 hz ht
      simp at hz ht
      subst hz; subst ht; rfl
    · intro i zprev zi si hprev hi hsi
      exact materializeStates_get? ex rest _ i zprev zi si hprev hi
        (by simpa using hsi)

/-- Closed instance of `C3_naive_split_invariants`: `naive_split` on a
two-shard split, with `ex` instantiated to a trivial stack oracle. -/
theorem C3_naive_split_invariants_witness :
    (naiveR.intermediate_states.length = naiveR.shards.length ∧
    (∀ z0 s0, naiveR.intermediate_states.head? = some z0 →
       naiveR.shards.head? = some s0 →
       z0 = IntermediateState.from_input_script exTriv [] s0) ∧
    (∀ i zprev zi si,
       naiveR.intermediate_states.get? i = some zprev →
       naiveR.intermediate_states.get? (i + 1) = some zi →
       naiveR.shards.get? (i + 1) = some si →
       zi = IntermediateState.from_intermediate_result exTriv zprev si)) :=
  C3_naive_split_invariants exTriv [] [.op OP_DUP] .byInstructions 1 naiveR rfl

/-! ### VM step lemmas -/

theorem num?_encode (i : Int) (h : i.natAbs < 2 ^ 31) :
    num? (encodeNum i) = some i := by
  rw [num?, if_pos (encodeNum_length i h), decode_encode]

theorem step_push (h : Item → Item) (v : VM) (d : Item) :
    execInstr h v (.push d) = some ⟨d :: v.main, v.alt⟩ := rfl

theorem step_dup (h : Item → Item) (x : Item) (s a : List Item) :
    execInstr h ⟨x :: s, a⟩ (.op OP_DUP) = some ⟨x :: x :: s, a⟩ := rfl

theorem step_drop (h : Item → Item) (x : Item) (s a : List Item) :
    execInstr h ⟨x :: s, a⟩ (.op OP_DROP) = some ⟨s, a⟩ := rfl

theorem step_2drop (h : Item → Item) (x y : Item) (s a : List Item) :
    execInstr h ⟨x :: y :: s, a⟩ (.op OP_2DROP) = some ⟨s, a⟩ := rfl

theorem step_toalt (h : Item → Item) (x : Item) (s a : List Item) :
    execInstr h ⟨x :: s, a⟩ (.op OP_TOALTSTACK) = some ⟨s, x :: a⟩ := rfl

theorem step_fromalt (h : Item → Item) (x : Item) (s a : List Item) :
    execInstr h ⟨s, x :: a⟩ (.op OP_FROMALTSTACK) = some ⟨x :: s, a⟩ := rfl

theorem step_swap (h : Item → Item) (x y : Item) (s a : List Item) :
    execInstr h ⟨x :: y :: s, a⟩ (.op OP_SWAP) = some ⟨y :: x :: s, a⟩ := rfl

theorem step_tuck (h : Item → Item) (x y : Item) (s a : List Item) :
    execInstr h ⟨x :: y :: s, a⟩ (.op OP_TUCK) = some ⟨x :: y :: x :: s, a⟩ := rfl

theorem step_equal (h : Item → Item) (x y : Item) (s a : List Item) :
    execInstr h ⟨y :: x :: s, a⟩ (.op OP_EQUAL)
      = some ⟨boolItem (x = y) :: s, a⟩ := rfl

theorem step_equalverify (h : Item → Item) (x y : Item) (s a : List Item) :
    execInstr h ⟨y :: x :: s, a⟩ (.op OP_EQUALVERIFY)
      = if x = y then some ⟨s, a⟩ else none := rfl

theorem step_hash160 (h : Item → Item) (x : Item) (s a : List Item) :
    execInstr h ⟨x :: s, a⟩ (.op OP_HASH160) = some ⟨h x :: s, a⟩ := rfl

theorem step_not (h : Item → Item) (x : Item) (s a : List Item) :
    execInstr h ⟨x :: s, a⟩ (.op OP_NOT)
      = match num? x with
        | some n => some ⟨encodeNum (if n = 0 then 1 else 0) :: s, a⟩
        | none => none := rfl

theorem step_negate (h : Item → Item) (x : Item) (s a : List Item) :
    execInstr h ⟨x :: s, a⟩ (.op OP_NEGATE)
      = match num? x with
        | some n => some ⟨encodeNum (-n) :: s, a⟩
        | none => none := rfl

theorem step_add (h : Item → Item) (x y : Item) (s a : List Item) :
    execInstr h ⟨y :: x :: s, a⟩ (.op OP_ADD)
      = match num? x, num? y with
        | some m, some n => some ⟨encodeNum (m + n) :: s, a⟩
        | _, _ => none := rfl

theorem step_sub (h : Item → Item) (x y : Item) (s a : List Item) :
    execInstr h ⟨y :: x :: s, a⟩ (.op OP_SUB)
      = match num? x, num? y with
        | some m, some n => some ⟨encodeNum (m - n) :: s, a⟩
        | _, _ => none := rfl

theorem step_boolor (h : Item → Item) (x y : Item) (s a : List Item) :
    execInstr h ⟨y :: x :: s, a⟩ (.op OP_BOOLOR)
      = match num? x, num? y with
        | some m, some n =>
          some ⟨encodeNum (if m ≠ 0 ∨ n ≠ 0 then 1 else 0) :: s, a⟩
        | _, _ => none := rfl

theorem step_min (h : Item → Item) (x y : Item) (s a : List Item) :
    execInstr h ⟨y :: x :: s, a⟩ (.op OP_MIN)
      = match num? x, num? y with
        | some m, some n => some ⟨encodeNum (min m n) :: s, a⟩
        | _, _ => none := rfl

theorem step_roll (h : Item → Item) (x : Item) (s a : List Item) :
    execInstr h ⟨x :: s, a⟩ (.op OP_ROLL)
      = match num? x with
        | some n =>
          if n < 0 then none
          else
            match s.get? n.toNat with
            | some y => some ⟨y :: s.eraseIdx n.toNat, a⟩
            | none => none
        | none => none := rfl

theorem step_pick (h : Item → Item) (x : Item) (s a : List Item) :
    execInstr h ⟨x :: s, a⟩ (.op OP_PICK)
      = match num? x with
        | some n =>
          if n < 0 then none
          else
            match s.get? n.toNat with
            | some y => some ⟨y :: s, a⟩
            | none => none
        | none => none := rfl

theorem get?_middle {α : Type _} (xs : List α) (x : α) (B : List α) :
    (xs ++ x :: B).get? xs.length = some x := by
  induction xs with
  | nil => rfl
  | cons a r ih => simpa using ih

theorem eraseIdx_middle {α : Type _} (xs : List α) (x : α) (B : List α) :
    (xs ++ x :: B).eraseIdx xs.length = xs ++ B := by
  induction xs with
  | nil => rfl
  | cons a r ih => simp [List.eraseIdx_cons_succ, ih]

/-- Combined push-then-roll step used by generated scripts: `{k} OP_ROLL`
moves the element at depth `k` to the top. -/
theorem exec_roll_at (h : Item → Item) (s a : List Item) (k : Nat)
    (y : Item) (hk : k < 2 ^ 31) (hy : s.get? k = some y) :
    execScript h ⟨s, a⟩ [pushInt (k : Int), .op OP_ROLL]
      = some ⟨y :: s.eraseIdx k, a⟩ := by
  rw [execScript_cons_some h _ (execInstr_pushInt h ⟨s, a⟩ (k : Int))]
  rw [execScript_cons, step_roll]
  rw [num?_encode (k : Int) (by simpa using hk)]
  simp only [Int.toNat_natCast]
  rw [if_neg (by omega), hy]
  rfl

/-- Combined push-then-pick step: `{k} OP_PICK` copies the element at
depth `k` to the top. -/
theorem exec_pick_at (h : Item → Item) (s a : List Item) (k : Nat)
    (y : Item) (hk : k < 2 ^ 31) (hy : s.get? k = some y) :
    execScript h ⟨s, a⟩ [pushInt (k : Int), .op OP_PICK]
      = some ⟨y :: s, a⟩ := by
  rw [execScript_cons_some h _ (execInstr_pushInt h ⟨s, a⟩ (k : Int))]
  rw [execScript_cons, step_pick]
  rw [num?_encode (k : Int) (by simpa using hk)]
  simp only [Int.toNat_natCast]
  rw [if_neg (by omega), hy]
  rfl

theorem exec_pushList (h : Item → Item) (l : List Item) :
    ∀ v : VM, execScript h v (l.map Instr.push)
      = some ⟨l.reverse ++ v.main, v.alt⟩ := by
  induction l with
  | nil => intro v; simp
  | cons x r ih =>
    intro v
    rw [List.map_cons, execScript_cons_some h _ (step_push h v x), ih]
    simp

theorem exec_stack_to_script (h : Item → Item) (s : List Item) (v : VM) :
    execScript h v (stack_to_script s) = some ⟨s ++ v.main, v.alt⟩ := by
  rw [stack_to_script, exec_pushList]
  simp

/-- The canonical bottom-to-top transfer loop: with `A` on top of the
main stack it moves `A` to the altstack preserving order. -/
theorem exec_rollToAlt (h : Item → Item) :
    ∀ (A B alt : List Item), A.length < 2 ^ 31 →
      execScript h ⟨A ++ B, alt⟩ (rollToAlt A.length) = some ⟨B, A ++ alt⟩ := by
  intro A
  induction A using List.reverseRecOn with
  | nil => intro B alt _; simp [rollToAlt]
  | append_singleton xs x ih =>
    intro B alt hlen
    have hlen2 : (xs ++ [x]).length = xs.length + 1 := by simp
    rw [hlen2, rollToAlt, List.append_assoc, List.singleton_append]
    have hx : xs.length < 2 ^ 31 := by simp at hlen; omega
    rw [show ([pushInt (xs.length : Int), .op OP_ROLL, .op OP_TOALTSTACK] :
        Script) = [pushInt (xs.length : Int), .op OP_ROLL]
          ++ [.op OP_TOALTSTACK] from rfl]
    rw [List.append_assoc, execScript_append]
    rw [exec_roll_at h _ alt xs.length x hx (get?_middle xs x B)]
    rw [eraseIdx_middle]
    simp only [Option.some_bind]
    rw [List.singleton_append]
    rw [execScript_cons_some h _ (step_toalt h x (xs ++ B) alt)]
    rw [ih B (x :: alt) hx]
    simp

theorem inject_script_eq (z : IntermediateState) :
    z.inject_script = stack_to_script z.stack ++
      (stack_to_script z.altstack ++ rollToAlt z.altstack.length) := by
  rw [IntermediateState.inject_script]
  by_cases h1 : z.stack.isEmpty <;> by_cases h2 : z.altstack.isEmpty <;>
    simp_all [List.isEmpty_iff, stack_to_script, rollToAlt]

/-- C4 (confirmed): executing the inject script of any intermediate
state on an empty VM restores exactly that state's main and alt stacks,
in order.  The altstack-size bound keeps every `OP_ROLL` count a valid
4-byte script number, as in the real VM. -/
theorem C4_inject_idempotence (h : Item → Item) (z : IntermediateState)
    (halt : z.altstack.length < 2 ^ 31) :
    execScript h ⟨[], []⟩ z.inject_script = some ⟨z.stack, z.altstack⟩ := by
  rw [inject_script_eq, execScript_append, exec_stack_to_script]
  simp only [List.append_nil, Option.some_bind]
  rw [execScript_append, exec_stack_to_script]
  simp only [Option.some_bind]
  rw [exec_rollToAlt h z.altstack z.stack [] halt]
  simp

/-- Closed instance of `C4_inject_idempotence`. -/
theorem C4_inject_idempotence_witness :
    execScript consHash ⟨[], []⟩
        (IntermediateState.inject_script ⟨[[1]], [[2]]⟩)
      = some ⟨[[1]], [[2]]⟩ :=
  C4_inject_idempotence consHash ⟨[[1]], [[2]]⟩ (by norm_num)

/-! ### Winternitz off-chain round-trip (C5) -/

theorem msgDigits_le (k : Nat) : ∀ m, ∀ d ∈ msgDigits k m, d ≤ 15 := by
  induction k with
  | zero => intro m d hd; simp [msgDigits] at hd
  | succ k ih =>
    intro m d hd
    simp only [msgDigits, List.mem_cons] at hd
    rcases hd with rfl | hd
    · have := Nat.mod_lt m (show 0 < 16 by norm_num)
      omega
    · exact ih _ d hd

theorem from_u32_le (m : Nat) : ∀ d ∈ from_u32 m, d ≤ 15 := by
  intro d hd
  rw [from_u32] at hd
  simp only [List.mem_append, List.mem_cons, List.not_mem_nil, or_false] at hd
  rcases hd with hd | hd | hd
  · exact msgDigits_le N0 m d hd
  · subst hd
    have := Nat.mod_lt (D * N0 - (msgDigits N0 m).sum) (show 0 < 16 by norm_num)
    omega
  · subst hd
    have h120 : D * N0 = 120 := by decide
    have : D * N0 - (msgDigits N0 m).sum ≤ 120 := by omega
    omega

theorem verify_sign (h : Item → Item) :
    ∀ (sk : SecretKey) (msg : List Nat), (∀ d ∈ msg, d ≤ D) →
      verify h (public_key h sk) msg (sign h sk msg) = true := by
  intro sk
  induction sk with
  | nil => intro msg _; rfl
  | cons s sk ih =>
    intro msg hd
    match msg with
    | [] => rfl
    | d :: ds =>
      have hdD : d ≤ D := hd d (by simp)
      simp only [verify, public_key, sign, List.map_cons,
        List.zipWith_cons_cons, List.zip_cons_cons, List.all_cons,
        Bool.and_eq_true]
      constructor
      · have hiter : h^[D - d] (h^[d] s) = h^[D] s := by
          rw [← Function.iterate_add_apply]
          congr 1
          omega
        rw [hiter]
        exact beq_self_eq_true _
      · have := ih ds (fun x hx => hd x (by simp [hx]))
        simpa [verify, public_key, sign] using this

/-- C5 (confirmed): for every message below `2^31` and every secret key,
off-chain verification accepts the signature over the message's digit
encoding: `PublicKey::verify(pk, Message::from_u32(m), sign(sk, ...))`
returns true. -/
theorem C5_winternitz_roundtrip (h : Item → Item) (sk : SecretKey) (m : Nat)
    (hm : m < 2 ^ 31) :
    verify h (public_key h sk) (from_u32 m) (sign h sk (from_u32 m)) = true :=
  verify_sign h sk (from_u32 m) (fun d hd => by
    have := from_u32_le m d hd
    norm_num [D]
    omega)

/-- Closed instance of `C5_winternitz_roundtrip`. -/
theorem C5_winternitz_roundtrip_witness :
    (3 < 2 ^ 31) ∧
    verify consHash (public_key consHash (List.replicate 10 []))
      (from_u32 3)
      (sign consHash (List.replicate 10 []) (from_u32 3)) = true :=
  ⟨by norm_num, C5_winternitz_roundtrip consHash (List.replicate 10 []) 3
    (by norm_num)⟩

/-! ### Witness extraction is push-only (C10) -/

theorem encodeNum_byte (n : Nat) (h1 : 0 < n) (h2 : n < 128) :
    encodeNum (n : Int) = [n] := by
  have hne : (n : Int) ≠ 0 := by omega
  have habs : (n : Int).natAbs = n := Int.natAbs_ofNat n
  have hbytes : natBytes n = [n] := by
    rw [natBytes_eq]
    simp only [show n ≠ 0 by omega, dite_false]
    rw [Nat.mod_eq_of_lt (by omega), natBytes_eq, dif_pos (Nat.div_eq_of_lt (by omega))]
  rw [encodeNum, if_neg hne, habs, hbytes]
  simp only [List.getLast?_singleton]
  rw [if_pos h2]
  simp [show ¬((n : Int) < 0) by omega]

theorem witness_elements_append (a b : Script) :
    ∀ ea, witness_elements a = some ea →
      witness_elements (a ++ b) = (witness_elements b).map (ea ++ ·) := by
  induction a with
  | nil =>
    intro ea ha
    simp only [witness_elements] at ha
    injection ha with ha
    subst ha
    simp
  | cons i r ih =>
    intro ea ha
    cases i with
    | push d =>
      rw [List.cons_append]
      simp only [witness_elements, List.append_eq] at ha ⊢
      rw [Option.map_eq_some'] at ha
      obtain ⟨er, her, rfl⟩ := ha
      rw [ih er her]
      cases witness_elements b <;> rfl
    | op c =>
      rw [List.cons_append]
      simp only [witness_elements, List.append_eq] at ha ⊢
      cases hcl : pushNumElement c with
      | none => simp only [hcl] at ha; exact absurd ha (by simp)
      | some e =>
        simp only [hcl] at ha ⊢
        rw [Option.map_eq_some'] at ha
        obtain ⟨er, her, rfl⟩ := ha
        rw [ih er her]
        cases witness_elements b <;> rfl

theorem witness_elements_pairs (ps : List (Nat × Item)) :
    witness_elements
        ((ps.map fun p => [Instr.push p.2, pushInt (p.1 : Int)]).flatten)
      = some ((ps.map fun p => [p.2, encodeNum (p.1 : Int)]).flatten) := by
  induction ps with
  | nil => rfl
  | cons p ps ih =>
    simp only [List.map_cons, List.flatten_cons]
    have h1 : witness_elements [Instr.push p.2, pushInt (p.1 : Int)]
        = some [p.2, encodeNum (p.1 : Int)] := by
      rcases p with ⟨t, sg⟩
      simp only
      rw [pushInt]
      by_cases h0 : (t : Int) = 0
      · rw [if_pos h0]
        have : t = 0 := by omega
        subst this
        rfl
      · rw [if_neg h0]
        by_cases h16 : 1 ≤ (t : Int) ∧ (t : Int) ≤ 16
        · rw [if_pos h16]
          have ht : (t : Int).toNat = t := Int.toNat_natCast t
          simp only [witness_elements, ht, pushNumElement]
          rw [if_neg (by unfold OP_1NEGATE; omega)]
          rw [if_pos (by unfold OP_PUSHNUM_1 OP_PUSHNUM_16; omega)]
          have : 80 + t - 80 = t := by omega
          rw [this]
          rw [encodeNum_byte t (by omega) (by omega)]
          rfl
        · rw [if_neg h16, if_neg (by omega)]
          rfl
    rw [witness_elements_append _ _ _ h1, ih]
    rfl

theorem witness_elements_sig_list (h : Item → Item)
    (es : List SignedStackElement) :
    witness_elements ((es.map fun e => to_script_sig (e.signature h)).flatten)
      = some ((es.map fun e => ((e.signature h).reverse.map fun p =>
          [p.2, encodeNum (p.1 : Int)]).flatten).flatten) := by
  induction es with
  | nil => rfl
  | cons e es ih =>
    simp only [List.map_cons, List.flatten_cons]
    rw [witness_elements_append _ _ _ (by
      rw [to_script_sig]; exact witness_elements_pairs (e.signature h).reverse)]
    rw [ih]
    rfl

theorem witness_elements_witness_script (h : Item → Item)
    (st : SignedIntermediateState) :
    witness_elements (witness_script h st) = some (sigElements h st) := by
  rw [witness_script, sigElements]
  rw [witness_elements_append _ _ _ (witness_elements_sig_list h st.stack)]
  rw [witness_elements_sig_list h st.altstack.reverse]
  simp

/-- C10 (confirmed): the witness script built by `DisproveScript::new`
consists only of data pushes and push-number opcodes, so
`witness_elements` never reaches its `unreachable!` branch and returns
one byte vector per pushed element, in push order: for every digit pair
the 20-byte signature chunk followed by the digit's minimal encoding. -/
theorem C10_witness_elements_push_only (h : Item → Item)
    (kFS kFA kTS kTA : Nat → SecretKey) (zFrom zTo : IntermediateState)
    (f : Script) :
    witness_elements
        (DisproveScript.new h kFS kFA kTS kTA zFrom zTo f).script_witness
      = some (sigElements h (signState kFS kFA zFrom)
          ++ sigElements h (signState kTS kTA zTo)) := by
  rw [DisproveScript.new]
  simp only
  rw [witness_elements_append _ _ _ (witness_elements_witness_script h _)]
  rw [witness_elements_witness_script h _]
  rfl


/-! ### In-VM Winternitz verification: digit blocks -/

theorem exec_to_script_sig (h : Item → Item) (sig : List (Nat × Item)) :
    ∀ v : VM, execScript h v (to_script_sig sig)
      = some ⟨wStackOfPairs sig ++ v.main, v.alt⟩ := by
  induction sig with
  | nil => intro v; simp [to_script_sig, wStackOfPairs]
  | cons p ps ih =>
    intro v
    have hsplit : to_script_sig (p :: ps)
        = to_script_sig ps ++ [.push p.2, pushInt (p.1 : Int)] := by
      simp [to_script_sig]
    rw [hsplit, execScript_append, ih]
    simp only [Option.some_bind]
    rw [execScript_cons_some h _ (step_push h _ p.2)]
    rw [execScript_cons_some h _ (execInstr_pushInt h _ (p.1 : Int))]
    simp [wStackOfPairs]

theorem chainList_shift (h : Item → Item) (k : Nat) (s : Item) :
    chainList h k (h s) ++ [s] = chainList h (k + 1) s := by
  induction k with
  | zero => simp [chainList]
  | succ k ih =>
    have hh : h^[k + 1] (h s) = h^[k + 1 + 1] s :=
      (Function.iterate_succ_apply h (k + 1) s).symm
    rw [chainList, List.cons_append, ih, hh]
    rfl

theorem chainList_length (h : Item → Item) (k : Nat) (s : Item) :
    (chainList h k s).length = k + 1 := by
  induction k with
  | zero => rfl
  | succ k ih => simp [chainList, ih]

theorem chainList_get? (h : Item → Item) (k : Nat) (s : Item) :
    ∀ i, i ≤ k → (chainList h k s).get? i = some (h^[k - i] s) := by
  induction k with
  | zero =>
    intro i hi
    have hi0 : i = 0 := by omega
    subst hi0
    simp [chainList]
  | succ k ih =>
    intro i hi
    match i with
    | 0 => simp [chainList]
    | Nat.succ j =>
      rw [chainList]
      have hstep : (h^[k + 1] s :: chainList h k s).get? (j + 1)
          = (chainList h k s).get? j := rfl
      rw [hstep, ih j (by omega)]
      congr 2
      omega

theorem exec_hashChain (h : Item → Item) (k : Nat) :
    ∀ (s : Item) (rest alt : List Item),
      execScript h ⟨s :: rest, alt⟩
          ((List.replicate k [Instr.op OP_DUP, Instr.op OP_HASH160]).flatten)
        = some ⟨chainList h k s ++ rest, alt⟩ := by
  induction k with
  | zero => intro s rest alt; simp [chainList]
  | succ k ih =>
    intro s rest alt
    rw [List.replicate_succ, List.flatten_cons]
    rw [execScript_append]
    rw [execScript_cons_some h _ (step_dup h s rest alt)]
    rw [execScript_cons_some h _ (step_hash160 h s (s :: rest) alt)]
    simp only [execScript_nil, Option.some_bind]
    rw [ih (h s) (s :: rest) alt]
    rw [show chainList h k (h s) ++ s :: rest
        = (chainList h k (h s) ++ [s]) ++ rest by simp]
    rw [chainList_shift]

theorem exec_2dropN (h : Item → Item) (n : Nat) :
    ∀ (L rest alt : List Item), L.length = 2 * n →
      execScript h ⟨L ++ rest, alt⟩
          ((List.replicate n [Instr.op OP_2DROP]).flatten)
        = some ⟨rest, alt⟩ := by
  induction n with
  | zero =>
    intro L rest alt hL
    have : L = [] := List.eq_nil_of_length_eq_zero (by omega)
    subst this
    simp
  | succ n ih =>
    intro L rest alt hL
    match L, hL with
    | a :: b :: L2, hL =>
      rw [List.replicate_succ, List.flatten_cons]
      rw [List.cons_append, List.cons_append, execScript_append]
      rw [execScript_cons_some h _ (step_2drop h a b (L2 ++ rest) alt)]
      simp only [execScript_nil, Option.some_bind]
      exact ih L2 rest alt (by simp at hL; omega)

/-- Symbolic execution of one digit block on an honest input: the digit
is at most `D`, the signature chunk is `s`, and the hard-coded
public-key chunk is `h^[D - d] s`.  The block consumes the two items and
leaves one copy of the encoded digit on the altstack. -/
theorem exec_digitBlock (h : Item → Item) (d : Nat) (s : Item)
    (rest alt : List Item) (hd : d ≤ 15) :
    execScript h ⟨encodeNum (d : Int) :: s :: rest, alt⟩
        (digitBlock (h^[15 - d] s))
      = some ⟨rest, encodeNum (d : Int) :: alt⟩ := by
  have hnum : num? (encodeNum ((d : Nat) : Int)) = some ((d : Nat) : Int) :=
    num?_encode _ (by simp; omega)
  have hnumD : num? (encodeNum (D : Int)) = some (D : Int) :=
    num?_encode _ (by norm_num [D])
  have hmin : execInstr h
      ⟨encodeNum (D : Int) :: encodeNum (d : Int) :: s :: rest, alt⟩
      (.op OP_MIN)
      = some ⟨encodeNum (d : Int) :: s :: rest, alt⟩ := by
    rw [step_min h _ _ _ _]
    simp only [hnum, hnumD]
    rw [show min ((d : Nat) : Int) (D : Int) = ((d : Nat) : Int) from
      min_eq_left (by norm_num [D]; omega)]
  have h1 : execScript h ⟨encodeNum (d : Int) :: s :: rest, alt⟩
      [pushInt (D : Int), .op OP_MIN, .op OP_DUP, .op OP_TOALTSTACK,
       .op OP_TOALTSTACK]
      = some ⟨s :: rest, encodeNum (d : Int) :: encodeNum (d : Int) :: alt⟩ := by
    rw [execScript_cons_some h _ (execInstr_pushInt h _ (D : Int))]
    rw [execScript_cons_some h _ hmin]
    rw [execScript_cons_some h _ (step_dup h _ _ _)]
    rw [execScript_cons_some h _ (step_toalt h _ _ _)]
    rw [execScript_cons_some h _ (step_toalt h _ _ _)]
    rfl
  have hpick : execInstr h
      ⟨encodeNum (d : Int) :: (chainList h D s ++ rest),
       encodeNum (d : Int) :: alt⟩ (.op OP_PICK)
      = some ⟨h^[15 - d] s :: (chainList h D s ++ rest),
          encodeNum (d : Int) :: alt⟩ := by
    rw [step_pick h _ _ _]
    simp only [hnum]
    rw [if_neg (by omega)]
    simp only [Int.toNat_natCast]
    rw [List.get?_append (by rw [chainList_length]; norm_num [D]; omega)]
    rw [chainList_get? h D s d (by norm_num [D]; omega)]
    rw [show (D : Nat) - d = 15 - d from rfl]
  have hveq : execInstr h
      ⟨h^[15 - d] s :: h^[15 - d] s :: (chainList h D s ++ rest),
       encodeNum (d : Int) :: alt⟩ (.op OP_EQUALVERIFY)
      = some ⟨chainList h D s ++ rest, encodeNum (d : Int) :: alt⟩ := by
    rw [step_equalverify h _ _ _ _]
    rw [if_pos rfl]
  have h3 : execScript h
      ⟨chainList h D s ++ rest,
       encodeNum (d : Int) :: encodeNum (d : Int) :: alt⟩
      [.op OP_FROMALTSTACK, .op OP_PICK, .push (h^[15 - d] s),
       .op OP_EQUALVERIFY]
      = some ⟨chainList h D s ++ rest, encodeNum (d : Int) :: alt⟩ := by
    rw [execScript_cons_some h _ (step_fromalt h _ _ _)]
    rw [execScript_cons_some h _ hpick]
    rw [execScript_cons_some h _ (step_push h _ _)]
    rw [execScript_cons_some h _ hveq]
    rfl
  rw [digitBlock, execScript_append, execScript_append, execScript_append]
  rw [h1]
  simp only [Option.some_bind]
  rw [exec_hashChain h D s rest _]
  simp only [Option.some_bind]
  rw [h3]
  simp only [Option.some_bind]
  exact exec_2dropN h ((D + 1) / 2) (chainList h D s) rest _
    (by rw [chainList_length]; rfl)

theorem exec_digitBlocks (h : Item → Item) :
    ∀ (ps : List (Nat × Item)) (rest alt : List Item),
      (∀ p ∈ ps, p.1 ≤ 15) →
      execScript h ⟨wStackOfPairs ps ++ rest, alt⟩
          ((ps.map fun p => digitBlock (h^[15 - p.1] p.2)).flatten)
        = some ⟨rest,
            (ps.map fun p => encodeNum ((p.1 : Nat) : Int)).reverse ++ alt⟩ := by
  intro ps
  induction ps with
  | nil => intro rest alt _; simp [wStackOfPairs]
  | cons p ps ih =>
    intro rest alt hb
    simp only [List.map_cons, List.flatten_cons]
    rw [show wStackOfPairs (p :: ps) ++ rest
        = encodeNum ((p.1 : Nat) : Int) :: p.2 :: (wStackOfPairs ps ++ rest) by
      simp [wStackOfPairs]]
    rw [execScript_append]
    rw [exec_digitBlock h p.1 p.2 _ _ (hb p (by simp))]
    simp only [Option.some_bind]
    rw [ih _ _ (fun q hq => hb q (by simp [hq]))]
    simp

theorem checksig_blocks_eq (h : Item → Item) :
    ∀ (sk : SecretKey) (ds : List Nat), sk.length = ds.length →
      (∀ d ∈ ds, d ≤ 15) →
      (public_key h sk).map digitBlock
        = (sign h sk ds).map (fun p => digitBlock (h^[15 - p.1] p.2)) := by
  intro sk
  induction sk with
  | nil => intro ds _ _; rfl
  | cons s sk ih =>
    intro ds hlen hb
    match ds with
    | [] => simp at hlen
    | d :: ds =>
      simp only [public_key, sign, List.map_cons, List.zipWith_cons_cons]
      have hiter : h^[15 - d] (h^[d] s) = h^[D] s := by
        rw [← Function.iterate_add_apply]
        congr 1
        have : d ≤ 15 := hb d (by simp)
        norm_num [D]
        omega
      rw [hiter]
      congr 1
      exact ih ds (by simpa using hlen) (fun x hx => hb x (by simp [hx]))

theorem exec_doubleN (h : Item → Item) (k : Nat) :
    ∀ (x : Int) (rest alt : List Item), (2 ^ k * x).natAbs < 2 ^ 31 →
      execScript h ⟨encodeNum x :: rest, alt⟩
          ((List.replicate k [Instr.op OP_DUP, Instr.op OP_ADD]).flatten)
        = some ⟨encodeNum (2 ^ k * x) :: rest, alt⟩ := by
  induction k with
  | zero => intro x rest alt _; simp
  | succ k ih =>
    intro x rest alt hb
    have habs : (2 ^ (k + 1) * x).natAbs = 2 ^ (k + 1) * x.natAbs := by
      rw [Int.natAbs_mul]
      congr 1
      rw [Int.natAbs_pow]
      rfl
    have hx : x.natAbs < 2 ^ 31 := by
      have h1 : x.natAbs ≤ 2 ^ (k + 1) * x.natAbs :=
        Nat.le_mul_of_pos_left _ (Nat.pos_pow_of_pos _ (by norm_num))
      omega
    have hnum : num? (encodeNum x) = some x := num?_encode x hx
    rw [List.replicate_succ, List.flatten_cons, execScript_append]
    rw [execScript_cons_some h _ (step_dup h _ _ _)]
    have hadd : execInstr h ⟨encodeNum x :: encodeNum x :: rest, alt⟩
        (.op OP_ADD) = some ⟨encodeNum (x + x) :: rest, alt⟩ := by
      rw [step_add h _ _ _ _]
      simp only [hnum]
    rw [execScript_cons_some h _ hadd]
    simp only [execScript_nil, Option.some_bind]
    have hb2 : (2 ^ k * (x + x)).natAbs < 2 ^ 31 := by
      have : 2 ^ k * (x + x) = 2 ^ (k + 1) * x := by ring
      rw [this]
      exact hb
    rw [ih (x + x) rest alt hb2]
    rw [show (2 : Int) ^ k * (x + x) = 2 ^ (k + 1) * x by ring]

theorem exec_fromTuckSub (h : Item → Item) :
    ∀ (ds : List Nat) (acc : Int) (S alt : List Item),
      (∀ d ∈ ds, d ≤ 15) → acc.natAbs + ds.sum ≤ 360 →
      execScript h ⟨encodeNum acc :: S,
          (ds.map fun d => encodeNum ((d : Nat) : Int)) ++ alt⟩
          ((List.replicate ds.length
            [Instr.op OP_FROMALTSTACK, Instr.op OP_TUCK,
             Instr.op OP_SUB]).flatten)
        = some ⟨encodeNum (acc - (ds.sum : Int)) ::
            ((ds.reverse.map fun d => encodeNum ((d : Nat) : Int)) ++ S),
            alt⟩ := by
  intro ds
  induction ds with
  | nil => intro acc S alt _ _; simp
  | cons d ds ih =>
    intro acc S alt hb hbound
    have hd15 : d ≤ 15 := hb d (by simp)
    have hacc : acc.natAbs < 2 ^ 31 := by omega
    have hnumacc : num? (encodeNum acc) = some acc := num?_encode acc hacc
    have hnumd : num? (encodeNum ((d : Nat) : Int)) = some ((d : Nat) : Int) :=
      num?_encode _ (by simp; omega)
    have hsub : execInstr h
        ⟨encodeNum ((d : Nat) : Int) :: encodeNum acc ::
          encodeNum ((d : Nat) : Int) :: S,
         (ds.map fun x => encodeNum ((x : Nat) : Int)) ++ alt⟩
        (.op OP_SUB)
        = some ⟨encodeNum (acc - ((d : Nat) : Int)) ::
            encodeNum ((d : Nat) : Int) :: S,
            (ds.map fun x => encodeNum ((x : Nat) : Int)) ++ alt⟩ := by
      rw [step_sub h _ _ _ _]
      simp only [hnumacc, hnumd]
    simp only [List.length_cons, List.replicate_succ, List.flatten_cons,
      List.map_cons, List.cons_append, List.nil_append]
    rw [execScript_cons_some h _ (step_fromalt h _ _ _)]
    rw [execScript_cons_some h _ (step_tuck h _ _ _ _)]
    rw [execScript_cons_some h _ hsub]
    rw [ih (acc - ((d : Nat) : Int)) (encodeNum ((d : Nat) : Int) :: S) alt
      (fun x hx => hb x (by simp [hx]))
      (by
        have := Int.natAbs_sub_le acc ((d : Nat) : Int)
        simp only [List.sum_cons] at hbound
        simp at this
        omega)]
    have hcast : acc - ((d : Nat) : Int) - ((ds.sum : Nat) : Int)
        = acc - (((d :: ds).sum : Nat) : Int) := by
      push_cast [List.map_cons, List.sum_cons]
      ring
    rw [hcast]
    simp [List.append_assoc]

/-! ### In-VM Winternitz verification: checksum and recovery phases -/

theorem exec_checksumScript (h : Item → Item)
    (d0 d1 d2 d3 d4 d5 d6 d7 c0 c1 : Nat) (rest alt : List Item)
    (hb0 : d0 ≤ 15) (hb1 : d1 ≤ 15) (hb2 : d2 ≤ 15) (hb3 : d3 ≤ 15)
    (hb4 : d4 ≤ 15) (hb5 : d5 ≤ 15) (hb6 : d6 ≤ 15) (hb7 : d7 ≤ 15)
    (hc0 : c0 ≤ 15) (hc1 : c1 ≤ 15)
    (hsum : 16 * c1 + c0 + (d0 + d1 + d2 + d3 + d4 + d5 + d6 + d7) = 120) :
    execScript h ⟨rest,
        encodeNum ((c1 : Nat) : Int) :: encodeNum ((c0 : Nat) : Int) ::
        encodeNum ((d7 : Nat) : Int) :: encodeNum ((d6 : Nat) : Int) ::
        encodeNum ((d5 : Nat) : Int) :: encodeNum ((d4 : Nat) : Int) ::
        encodeNum ((d3 : Nat) : Int) :: encodeNum ((d2 : Nat) : Int) ::
        encodeNum ((d1 : Nat) : Int) :: encodeNum ((d0 : Nat) : Int) :: alt⟩
        checksumScript
      = some ⟨encodeNum ((d0 : Nat) : Int) :: encodeNum ((d1 : Nat) : Int) ::
          encodeNum ((d2 : Nat) : Int) :: encodeNum ((d3 : Nat) : Int) ::
          encodeNum ((d4 : Nat) : Int) :: encodeNum ((d5 : Nat) : Int) ::
          encodeNum ((d6 : Nat) : Int) :: encodeNum ((d7 : Nat) : Int) :: rest,
          alt⟩ := by
  have hcs : checksumScript
      = [Instr.op OP_FROMALTSTACK] ++
        ((List.replicate 4 [Instr.op OP_DUP, Instr.op OP_ADD]).flatten ++
         [Instr.op OP_FROMALTSTACK, Instr.op OP_ADD]) ++
        [Instr.op OP_FROMALTSTACK, Instr.op OP_DUP, Instr.op OP_NEGATE] ++
        (List.replicate 7 [Instr.op OP_FROMALTSTACK, Instr.op OP_TUCK,
          Instr.op OP_SUB]).flatten ++
        ([pushInt ((D * N0 : Nat) : Int), Instr.op OP_ADD,
          pushInt ((N0 + 1 : Nat) : Int), Instr.op OP_ROLL,
          Instr.op OP_EQUALVERIFY]) := rfl
  rw [hcs]
  rw [execScript_append, execScript_append, execScript_append,
    execScript_append]
  rw [execScript_cons_some h _ (step_fromalt h _ _ _)]
  simp only [execScript_nil, Option.some_bind]
  -- checksum-digit summation: c1 * 16 + c0
  rw [execScript_append]
  rw [exec_doubleN h 4 ((c1 : Nat) : Int) rest _ (by simp; omega)]
  simp only [Option.some_bind]
  rw [execScript_cons_some h _ (step_fromalt h _ _ _)]
  have hadd1 : execInstr h
      ⟨encodeNum ((c0 : Nat) : Int) :: encodeNum (2 ^ 4 * ((c1 : Nat) : Int)) :: rest,
       encodeNum ((d7 : Nat) : Int) :: encodeNum ((d6 : Nat) : Int) ::
       encodeNum ((d5 : Nat) : Int) :: encodeNum ((d4 : Nat) : Int) ::
       encodeNum ((d3 : Nat) : Int) :: encodeNum ((d2 : Nat) : Int) ::
       encodeNum ((d1 : Nat) : Int) :: encodeNum ((d0 : Nat) : Int) :: alt⟩
      (.op OP_ADD)
      = some ⟨encodeNum (2 ^ 4 * ((c1 : Nat) : Int) + ((c0 : Nat) : Int)) :: rest,
          encodeNum ((d7 : Nat) : Int) :: encodeNum ((d6 : Nat) : Int) ::
          encodeNum ((d5 : Nat) : Int) :: encodeNum ((d4 : Nat) : Int) ::
          encodeNum ((d3 : Nat) : Int) :: encodeNum ((d2 : Nat) : Int) ::
          encodeNum ((d1 : Nat) : Int) :: encodeNum ((d0 : Nat) : Int) :: alt⟩ := by
    rw [step_add h _ _ _ _]
    rw [num?_encode _ (by simp; omega)]
    rw [num?_encode _ (by simp [Int.natAbs_mul]; omega)]
  rw [execScript_cons_some h _ hadd1]
  simp only [execScript_nil, Option.some_bind]
  -- message-digit checksum: FROMALT DUP NEGATE then the subtract loop
  rw [execScript_cons_some h _ (step_fromalt h _ _ _)]
  rw [execScript_cons_some h _ (step_dup h _ _ _)]
  have hneg : execInstr h
      ⟨encodeNum ((d7 : Nat) : Int) :: encodeNum ((d7 : Nat) : Int) ::
        encodeNum (2 ^ 4 * ((c1 : Nat) : Int) + ((c0 : Nat) : Int)) :: rest,
       encodeNum ((d6 : Nat) : Int) :: encodeNum ((d5 : Nat) : Int) ::
       encodeNum ((d4 : Nat) : Int) :: encodeNum ((d3 : Nat) : Int) ::
       encodeNum ((d2 : Nat) : Int) :: encodeNum ((d1 : Nat) : Int) ::
       encodeNum ((d0 : Nat) : Int) :: alt⟩
      (.op OP_NEGATE)
      = some ⟨encodeNum (-((d7 : Nat) : Int)) :: encodeNum ((d7 : Nat) : Int) ::
          encodeNum (2 ^ 4 * ((c1 : Nat) : Int) + ((c0 : Nat) : Int)) :: rest,
          encodeNum ((d6 : Nat) : Int) :: encodeNum ((d5 : Nat) : Int) ::
          encodeNum ((d4 : Nat) : Int) :: encodeNum ((d3 : Nat) : Int) ::
          encodeNum ((d2 : Nat) : Int) :: encodeNum ((d1 : Nat) : Int) ::
          encodeNum ((d0 : Nat) : Int) :: alt⟩ := by
    rw [step_negate h _ _ _]
    rw [num?_encode _ (by simp; omega)]
  rw [execScript_cons_some h _ hneg]
  simp only [execScript_nil, Option.some_bind]
  have hsubloop := exec_fromTuckSub h [d6, d5, d4, d3, d2, d1, d0]
    (-((d7 : Nat) : Int))
    (encodeNum ((d7 : Nat) : Int) ::
      encodeNum (2 ^ 4 * ((c1 : Nat) : Int) + ((c0 : Nat) : Int)) :: rest)
    alt (by intro x hx; simp at hx; omega) (by simp; omega)
  simp only [List.length_cons, List.length_nil, List.map_cons, List.map_nil,
    List.cons_append, List.nil_append] at hsubloop
  rw [show (List.replicate 7 [Instr.op OP_FROMALTSTACK, Instr.op OP_TUCK,
      Instr.op OP_SUB]).flatten
      = (List.replicate (0 + 1 + 1 + 1 + 1 + 1 + 1 + 1)
          [Instr.op OP_FROMALTSTACK, Instr.op OP_TUCK,
           Instr.op OP_SUB]).flatten from rfl]
  rw [hsubloop]
  simp only [Option.some_bind, List.reverse_cons, List.reverse_nil,
    List.nil_append, List.map_append, List.map_cons, List.map_nil,
    List.append_assoc, List.cons_append, List.singleton_append]
  -- final: add 120, roll the summed checksum up, compare
  rw [execScript_cons_some h _ (execInstr_pushInt h _ ((D * N0 : Nat) : Int))]
  have hsumle : d0 + d1 + d2 + d3 + d4 + d5 + d6 + d7 ≤ 120 := by omega
  have haccabs :
      (-((d7 : Nat) : Int) - (([d6, d5, d4, d3, d2, d1, d0].sum : Nat) : Int)).natAbs
        ≤ 120 := by
    simp
    omega
  have hadd2 : execInstr h
      ⟨encodeNum ((D * N0 : Nat) : Int) ::
        encodeNum (-((d7 : Nat) : Int) -
          (([d6, d5, d4, d3, d2, d1, d0].sum : Nat) : Int)) ::
        encodeNum ((d0 : Nat) : Int) :: encodeNum ((d1 : Nat) : Int) ::
        encodeNum ((d2 : Nat) : Int) :: encodeNum ((d3 : Nat) : Int) ::
        encodeNum ((d4 : Nat) : Int) :: encodeNum ((d5 : Nat) : Int) ::
        encodeNum ((d6 : Nat) : Int) :: encodeNum ((d7 : Nat) : Int) ::
        encodeNum (2 ^ 4 * ((c1 : Nat) : Int) + ((c0 : Nat) : Int)) :: rest,
       alt⟩ (.op OP_ADD)
      = some ⟨encodeNum ((-((d7 : Nat) : Int) -
            (([d6, d5, d4, d3, d2, d1, d0].sum : Nat) : Int)) +
            ((D * N0 : Nat) : Int)) ::
          encodeNum ((d0 : Nat) : Int) :: encodeNum ((d1 : Nat) : Int) ::
          encodeNum ((d2 : Nat) : Int) :: encodeNum ((d3 : Nat) : Int) ::
          encodeNum ((d4 : Nat) : Int) :: encodeNum ((d5 : Nat) : Int) ::
          encodeNum ((d6 : Nat) : Int) :: encodeNum ((d7 : Nat) : Int) ::
          encodeNum (2 ^ 4 * ((c1 : Nat) : Int) + ((c0 : Nat) : Int)) :: rest,
          alt⟩ := by
    rw [step_add h _ _ _ _]
    rw [num?_encode _ (by omega)]
    rw [num?_encode _ (by norm_num [D, N0, V, BITS_PER_DIGIT])]
  rw [execScript_cons_some h _ hadd2]
  rw [execScript_cons_some h _ (execInstr_pushInt h _ ((N0 + 1 : Nat) : Int))]
  have hroll : execInstr h
      ⟨encodeNum ((N0 + 1 : Nat) : Int) ::
        encodeNum ((-((d7 : Nat) : Int) -
          (([d6, d5, d4, d3, d2, d1, d0].sum : Nat) : Int)) +
          ((D * N0 : Nat) : Int)) ::
        encodeNum ((d0 : Nat) : Int) :: encodeNum ((d1 : Nat) : Int) ::
        encodeNum ((d2 : Nat) : Int) :: encodeNum ((d3 : Nat) : Int) ::
        encodeNum ((d4 : Nat) : Int) :: encodeNum ((d5 : Nat) : Int) ::
        encodeNum ((d6 : Nat) : Int) :: encodeNum ((d7 : Nat) : Int) ::
        encodeNum (2 ^ 4 * ((c1 : Nat) : Int) + ((c0 : Nat) : Int)) :: rest,
       alt⟩ (.op OP_ROLL)
      = some ⟨encodeNum (2 ^ 4 * ((c1 : Nat) : Int) + ((c0 : Nat) : Int)) ::
          encodeNum ((-((d7 : Nat) : Int) -
            (([d6, d5, d4, d3, d2, d1, d0].sum : Nat) : Int)) +
            ((D * N0 : Nat) : Int)) ::
          encodeNum ((d0 : Nat) : Int) :: encodeNum ((d1 : Nat) : Int) ::
          encodeNum ((d2 : Nat) : Int) :: encodeNum ((d3 : Nat) : Int) ::
          encodeNum ((d4 : Nat) : Int) :: encodeNum ((d5 : Nat) : Int) ::
          encodeNum ((d6 : Nat) : Int) :: encodeNum ((d7 : Nat) : Int) :: rest,
          alt⟩ := by
    rw [step_roll h _ _ _]
    simp only [num?_encode ((N0 + 1 : Nat) : Int)
      (by norm_num [N0, V, BITS_PER_DIGIT])]
    rw [if_neg (by omega)]
    rw [show (((N0 + 1 : Nat) : Int)).toNat = 9 from rfl]
    rfl
  rw [execScript_cons_some h _ hroll]
  have heqv : execInstr h
      ⟨encodeNum (2 ^ 4 * ((c1 : Nat) : Int) + ((c0 : Nat) : Int)) ::
        encodeNum ((-((d7 : Nat) : Int) -
          (([d6, d5, d4, d3, d2, d1, d0].sum : Nat) : Int)) +
          ((D * N0 : Nat) : Int)) ::
        encodeNum ((d0 : Nat) : Int) :: encodeNum ((d1 : Nat) : Int) ::
        encodeNum ((d2 : Nat) : Int) :: encodeNum ((d3 : Nat) : Int) ::
        encodeNum ((d4 : Nat) : Int) :: encodeNum ((d5 : Nat) : Int) ::
        encodeNum ((d6 : Nat) : Int) :: encodeNum ((d7 : Nat) : Int) :: rest,
       alt⟩ (.op OP_EQUALVERIFY)
      = some ⟨encodeNum ((d0 : Nat) : Int) :: encodeNum ((d1 : Nat) : Int) ::
          encodeNum ((d2 : Nat) : Int) :: encodeNum ((d3 : Nat) : Int) ::
          encodeNum ((d4 : Nat) : Int) :: encodeNum ((d5 : Nat) : Int) ::
          encodeNum ((d6 : Nat) : Int) :: encodeNum ((d7 : Nat) : Int) :: rest,
          alt⟩ := by
    rw [step_equalverify h _ _ _ _]
    rw [if_pos (by
      congr 1
      simp only [List.sum_cons, List.sum_nil]
      rw [show ((D * N0 : Nat) : Int) = (120 : Int) from rfl]
      push_cast
      omega)]
  rw [execScript_cons_some h _ heqv]
  rfl

theorem exec_sumLoop (h : Item → Item) :
    ∀ (xs : List Int) (acc : Int) (rest alt : List Item),
      0 ≤ acc → (∀ x ∈ xs, 0 ≤ x) → (acc + xs.sum).natAbs < 2 ^ 31 →
      execScript h ⟨encodeNum acc :: rest, (xs.map encodeNum) ++ alt⟩
          ((List.replicate xs.length
            [Instr.op OP_FROMALTSTACK, Instr.op OP_ADD]).flatten)
        = some ⟨encodeNum (acc + xs.sum) :: rest, alt⟩ := by
  intro xs
  induction xs with
  | nil => intro acc rest alt _ _ _; simp
  | cons x xs ih =>
    intro acc rest alt hacc hxs hbound
    have hx0 : 0 ≤ x := hxs x (by simp)
    have hsum0 : 0 ≤ xs.sum := List.sum_nonneg (fun y hy => hxs y (by simp [hy]))
    simp only [List.sum_cons] at hbound
    have haccb : acc.natAbs < 2 ^ 31 := by omega
    have hxb : x.natAbs < 2 ^ 31 := by omega
    simp only [List.length_cons, List.replicate_succ, List.flatten_cons,
      List.map_cons, List.cons_append, List.nil_append]
    rw [execScript_cons_some h _ (step_fromalt h _ _ _)]
    have hadd : execInstr h ⟨encodeNum x :: encodeNum acc :: rest,
        (xs.map encodeNum) ++ alt⟩ (.op OP_ADD)
        = some ⟨encodeNum (acc + x) :: rest, (xs.map encodeNum) ++ alt⟩ := by
      rw [step_add h _ _ _ _]
      rw [num?_encode _ haccb]
      rw [num?_encode _ hxb]
    rw [execScript_cons_some h _ hadd]
    rw [ih (acc + x) rest alt (by omega)
      (fun y hy => hxs y (by simp [hy])) (by omega)]
    rw [show acc + x + xs.sum = acc + (x + xs.sum) by ring, List.sum_cons]

set_option maxRecDepth 10000 in
theorem exec_recovery (h : Item → Item)
    (d0 d1 d2 d3 d4 d5 d6 d7 : Nat) (rest alt : List Item)
    (hv : d0 + 16 * d1 + 16 ^ 2 * d2 + 16 ^ 3 * d3 + 16 ^ 4 * d4 +
          16 ^ 5 * d5 + 16 ^ 6 * d6 + 16 ^ 7 * d7 < 2 ^ 31) :
    execScript h ⟨encodeNum ((d0 : Nat) : Int) :: encodeNum ((d1 : Nat) : Int) ::
        encodeNum ((d2 : Nat) : Int) :: encodeNum ((d3 : Nat) : Int) ::
        encodeNum ((d4 : Nat) : Int) :: encodeNum ((d5 : Nat) : Int) ::
        encodeNum ((d6 : Nat) : Int) :: encodeNum ((d7 : Nat) : Int) :: rest,
        alt⟩ recovery_script
      = some ⟨encodeNum ((d0 + 16 * d1 + 16 ^ 2 * d2 + 16 ^ 3 * d3 +
            16 ^ 4 * d4 + 16 ^ 5 * d5 + 16 ^ 6 * d6 + 16 ^ 7 * d7 : Nat) : Int)
          :: rest, alt⟩ := by
  have hterm : ∀ i : Nat, i ≤ 7 → ∀ d : Nat, d ≤ d7 * 0 + d0 + d1 + d2 + d3
      + d4 + d5 + d6 + d7 → True := fun _ _ _ _ => trivial
  have hrs : recovery_script
      = ((List.replicate (4 * 0) [Instr.op OP_DUP, Instr.op OP_ADD]).flatten
          ++ [Instr.op OP_TOALTSTACK]) ++
        (((List.replicate (4 * 1) [Instr.op OP_DUP, Instr.op OP_ADD]).flatten
          ++ [Instr.op OP_TOALTSTACK]) ++
        (((List.replicate (4 * 2) [Instr.op OP_DUP, Instr.op OP_ADD]).flatten
          ++ [Instr.op OP_TOALTSTACK]) ++
        (((List.replicate (4 * 3) [Instr.op OP_DUP, Instr.op OP_ADD]).flatten
          ++ [Instr.op OP_TOALTSTACK]) ++
        (((List.replicate (4 * 4) [Instr.op OP_DUP, Instr.op OP_ADD]).flatten
          ++ [Instr.op OP_TOALTSTACK]) ++
        (((List.replicate (4 * 5) [Instr.op OP_DUP, Instr.op OP_ADD]).flatten
          ++ [Instr.op OP_TOALTSTACK]) ++
        (((List.replicate (4 * 6) [Instr.op OP_DUP, Instr.op OP_ADD]).flatten
          ++ [Instr.op OP_TOALTSTACK]) ++
        (((List.replicate (4 * 7) [Instr.op OP_DUP, Instr.op OP_ADD]).flatten
          ++ [Instr.op OP_TOALTSTACK]) ++
        (Instr.op OP_FROMALTSTACK ::
          (List.replicate (N0 - 1)
            [Instr.op OP_FROMALTSTACK, Instr.op OP_ADD]).flatten)))))))) := rfl
  rw [hrs]
  rw [execScript_append, execScript_append]
  rw [exec_doubleN h (4 * 0) ((d0 : Nat) : Int) _ alt (by simp; omega)]
  simp only [Option.some_bind]
  rw [execScript_cons_some h _ (step_toalt h _ _ _)]
  simp only [execScript_nil, Option.some_bind]
  rw [execScript_append, execScript_append]
  rw [exec_doubleN h (4 * 1) ((d1 : Nat) : Int) _ _
    (by simp [Int.natAbs_mul]; omega)]
  simp only [Option.some_bind]
  rw [execScript_cons_some h _ (step_toalt h _ _ _)]
  simp only [execScript_nil, Option.some_bind]
  rw [execScript_append, execScript_append]
  rw [exec_doubleN h (4 * 2) ((d2 : Nat) : Int) _ _
    (by simp [Int.natAbs_mul]; omega)]
  simp only [Option.some_bind]
  rw [execScript_cons_some h _ (step_toalt h _ _ _)]
  simp only [execScript_nil, Option.some_bind]
  rw [execScript_append, execScript_append]
  rw [exec_doubleN h (4 * 3) ((d3 : Nat) : Int) _ _
    (by simp [Int.natAbs_mul]; omega)]
  simp only [Option.some_bind]
  rw [execScript_cons_some h _ (step_toalt h _ _ _)]
  simp only [execScript_nil, Option.some_bind]
  rw [execScript_append, execScript_append]
  rw [exec_doubleN h (4 * 4) ((d4 : Nat) : Int) _ _
    (by simp [Int.natAbs_mul]; omega)]
  simp only [Option.some_bind]
  rw [execScript_cons_some h _ (step_toalt h _ _ _)]
  simp only [execScript_nil, Option.some_bind]
  rw [execScript_append, execScript_append]
  rw [exec_doubleN h (4 * 5) ((d5 : Nat) : Int) _ _
    (by simp [Int.natAbs_mul]; omega)]
  simp only [Option.some_bind]
  rw [execScript_cons_some h _ (step_toalt h _ _ _)]
  simp only [execScript_nil, Option.some_bind]
  rw [execScript_append, execScript_append]
  rw [exec_doubleN h (4 * 6) ((d6 : Nat) : Int) _ _
    (by simp [Int.natAbs_mul]; omega)]
  simp only [Option.some_bind]
  rw [execScript_cons_some h _ (step_toalt h _ _ _)]
  simp only [execScript_nil, Option.some_bind]
  rw [execScript_append, execScript_append]
  rw [exec_doubleN h (4 * 7) ((d7 : Nat) : Int) _ _
    (by simp [Int.natAbs_mul]; omega)]
  simp only [Option.some_bind]
  rw [execScript_cons_some h _ (step_toalt h _ _ _)]
  simp only [execScript_nil, Option.some_bind]
  rw [execScript_cons_some h _ (step_fromalt h _ _ _)]
  rw [show (encodeNum (2 ^ (4 * 6) * ((d6 : Nat) : Int)) ::
      encodeNum (2 ^ (4 * 5) * ((d5 : Nat) : Int)) ::
      encodeNum (2 ^ (4 * 4) * ((d4 : Nat) : Int)) ::
      encodeNum (2 ^ (4 * 3) * ((d3 : Nat) : Int)) ::
      encodeNum (2 ^ (4 * 2) * ((d2 : Nat) : Int)) ::
      encodeNum (2 ^ (4 * 1) * ((d1 : Nat) : Int)) ::
      encodeNum (2 ^ (4 * 0) * ((d0 : Nat) : Int)) :: alt : List Item)
      = List.map encodeNum [2 ^ (4 * 6) * ((d6 : Nat) : Int),
          2 ^ (4 * 5) * ((d5 : Nat) : Int), 2 ^ (4 * 4) * ((d4 : Nat) : Int),
          2 ^ (4 * 3) * ((d3 : Nat) : Int), 2 ^ (4 * 2) * ((d2 : Nat) : Int),
          2 ^ (4 * 1) * ((d1 : Nat) : Int),
          2 ^ (4 * 0) * ((d0 : Nat) : Int)] ++ alt from rfl]
  rw [show (List.replicate (N0 - 1)
      [Instr.op OP_FROMALTSTACK, Instr.op OP_ADD]).flatten
      = (List.replicate ([2 ^ (4 * 6) * ((d6 : Nat) : Int),
          2 ^ (4 * 5) * ((d5 : Nat) : Int), 2 ^ (4 * 4) * ((d4 : Nat) : Int),
          2 ^ (4 * 3) * ((d3 : Nat) : Int), 2 ^ (4 * 2) * ((d2 : Nat) : Int),
          2 ^ (4 * 1) * ((d1 : Nat) : Int),
          2 ^ (4 * 0) * ((d0 : Nat) : Int)].length)
          [Instr.op OP_FROMALTSTACK, Instr.op OP_ADD]).flatten from rfl]
  rw [exec_sumLoop h
    [2 ^ (4 * 6) * ((d6 : Nat) : Int), 2 ^ (4 * 5) * ((d5 : Nat) : Int),
     2 ^ (4 * 4) * ((d4 : Nat) : Int), 2 ^ (4 * 3) * ((d3 : Nat) : Int),
     2 ^ (4 * 2) * ((d2 : Nat) : Int), 2 ^ (4 * 1) * ((d1 : Nat) : Int),
     2 ^ (4 * 0) * ((d0 : Nat) : Int)]
    (2 ^ (4 * 7) * ((d7 : Nat) : Int)) rest alt
    (by positivity)
    (by
      intro y hy
      simp at hy
      rcases hy with rfl | rfl | rfl | rfl | rfl | rfl | rfl <;> positivity)
    (by
      simp only [List.sum_cons, List.sum_nil]
      have : (2 : Int) ^ (4 * 7) * ((d7 : Nat) : Int) +
          (2 ^ (4 * 6) * ((d6 : Nat) : Int) + (2 ^ (4 * 5) * ((d5 : Nat) : Int) +
          (2 ^ (4 * 4) * ((d4 : Nat) : Int) + (2 ^ (4 * 3) * ((d3 : Nat) : Int) +
          (2 ^ (4 * 2) * ((d2 : Nat) : Int) + (2 ^ (4 * 1) * ((d1 : Nat) : Int) +
          (2 ^ (4 * 0) * ((d0 : Nat) : Int) + 0)))))))
          = ((d0 + 16 * d1 + 16 ^ 2 * d2 + 16 ^ 3 * d3 + 16 ^ 4 * d4 +
              16 ^ 5 * d5 + 16 ^ 6 * d6 + 16 ^ 7 * d7 : Nat) : Int) := by
        push_cast
        ring
      rw [this]
      simp
      omega)]
  congr 2
  simp only [List.sum_cons, List.sum_nil]
  push_cast
  ring

theorem msgDigits_length (k : Nat) : ∀ m, (msgDigits k m).length = k := by
  induction k with
  | zero => intro m; rfl
  | succ k ih => intro m; simp [msgDigits, ih]

theorem from_u32_length (m : Nat) : (from_u32 m).length = N := by
  rw [from_u32]
  simp only [List.length_append, msgDigits_length, List.length_cons,
    List.length_nil]
  decide

theorem sign_map_fst (h : Item → Item) :
    ∀ (sk : SecretKey) (ds : List Nat), sk.length = ds.length →
      (sign h sk ds).map Prod.fst = ds := by
  intro sk
  induction sk with
  | nil => intro ds hlen; match ds with
    | [] => rfl
    | _ :: _ => simp at hlen
  | cons s sk ih =>
    intro ds hlen
    match ds with
    | [] => simp at hlen
    | d :: ds =>
      simp only [sign, List.zipWith_cons_cons, List.map_cons]
      rw [show List.zipWith (fun s d => (d, h^[d] s)) sk ds = sign h sk ds
        from rfl]
      rw [ih ds (by simpa using hlen)]

theorem sign_fst_le (h : Item → Item) :
    ∀ (sk : SecretKey) (ds : List Nat), (∀ d ∈ ds, d ≤ 15) →
      ∀ p ∈ sign h sk ds, p.1 ≤ 15 := by
  intro sk
  induction sk with
  | nil => intro ds _ p hp; simp [sign] at hp
  | cons s sk ih =>
    intro ds hb p hp
    match ds with
    | [] => simp [sign] at hp
    | d :: ds =>
      simp only [sign, List.zipWith_cons_cons, List.mem_cons] at hp
      rcases hp with rfl | hp
      · exact hb d (by simp)
      · exact ih ds (fun x hx => hb x (by simp [hx])) p hp

theorem in_vm_accepts_honest (h : Item → Item) (sk : SecretKey) (m : Nat)
    (hsk : sk.length = N) :
    inVMVerifies h (public_key h sk) (sign h sk (from_u32 m)) = true := by
  have hlen : sk.length = (from_u32 m).length := by
    rw [hsk, from_u32_length]
  obtain ⟨e0, e1, e2, e3, e4, e5, e6, e7, he⟩ :
      ∃ e0 e1 e2 e3 e4 e5 e6 e7,
        msgDigits N0 m = [e0, e1, e2, e3, e4, e5, e6, e7] :=
    ⟨_, _, _, _, _, _, _, _, rfl⟩
  have hbd : ∀ d ∈ msgDigits N0 m, d ≤ 15 := msgDigits_le N0 m
  rw [he] at hbd
  have hb0 : e0 ≤ 15 := hbd e0 (by simp)
  have hb1 : e1 ≤ 15 := hbd e1 (by simp)
  have hb2 : e2 ≤ 15 := hbd e2 (by simp)
  have hb3 : e3 ≤ 15 := hbd e3 (by simp)
  have hb4 : e4 ≤ 15 := hbd e4 (by simp)
  have hb5 : e5 ≤ 15 := hbd e5 (by simp)
  have hb6 : e6 ≤ 15 := hbd e6 (by simp)
  have hb7 : e7 ≤ 15 := hbd e7 (by simp)
  have hfu : from_u32 m
      = msgDigits N0 m ++
        [(D * N0 - (msgDigits N0 m).sum) % 16,
         (D * N0 - (msgDigits N0 m).sum) / 16] := rfl
  rw [he] at hfu
  have hsumlit : ([e0, e1, e2, e3, e4, e5, e6, e7] : List Nat).sum
      = e0 + e1 + e2 + e3 + e4 + e5 + e6 + e7 := by
    simp only [List.sum_cons, List.sum_nil]
    ring
  rw [hsumlit] at hfu
  have hDN : D * N0 = 120 := by decide
  rw [hDN] at hfu
  unfold inVMVerifies
  rw [execScript_append, exec_to_script_sig]
  simp only [Option.some_bind]
  unfold checksig_verify_script
  rw [checksig_blocks_eq h sk (from_u32 m) hlen (from_u32_le m)]
  rw [execScript_append]
  rw [exec_digitBlocks h (sign h sk (from_u32 m)) [] []
    (sign_fst_le h sk (from_u32 m) (from_u32_le m))]
  simp only [Option.some_bind]
  rw [show (fun p : Nat × Item => encodeNum ((p.1 : Nat) : Int))
      = (fun d : Nat => encodeNum ((d : Nat) : Int)) ∘ Prod.fst from rfl]
  rw [← List.map_map, sign_map_fst h sk (from_u32 m) hlen]
  rw [hfu]
  simp only [List.cons_append, List.nil_append]
  rw [show (List.map (fun d : Nat => encodeNum ((d : Nat) : Int))
        [e0, e1, e2, e3, e4, e5, e6, e7,
         (120 - (e0 + e1 + e2 + e3 + e4 + e5 + e6 + e7)) % 16,
         (120 - (e0 + e1 + e2 + e3 + e4 + e5 + e6 + e7)) / 16]).reverse ++ []
      = encodeNum
          (((120 - (e0 + e1 + e2 + e3 + e4 + e5 + e6 + e7)) / 16 : Nat) : Int) ::
        encodeNum
          (((120 - (e0 + e1 + e2 + e3 + e4 + e5 + e6 + e7)) % 16 : Nat) : Int) ::
        encodeNum ((e7 : Nat) : Int) :: encodeNum ((e6 : Nat) : Int) ::
        encodeNum ((e5 : Nat) : Int) :: encodeNum ((e4 : Nat) : Int) ::
        encodeNum ((e3 : Nat) : Int) :: encodeNum ((e2 : Nat) : Int) ::
        encodeNum ((e1 : Nat) : Int) :: encodeNum ((e0 : Nat) : Int) :: []
      from by simp]
  rw [exec_checksumScript h e0 e1 e2 e3 e4 e5 e6 e7
    ((120 - (e0 + e1 + e2 + e3 + e4 + e5 + e6 + e7)) % 16)
    ((120 - (e0 + e1 + e2 + e3 + e4 + e5 + e6 + e7)) / 16)
    [] [] hb0 hb1 hb2 hb3 hb4 hb5 hb6 hb7 (by omega) (by omega) (by omega)]
  rfl

/-- C6 (corrected): the in-VM verifier and the off-chain verifier do
not agree on every input (see the separate counterexample: a message
with all-zero digits, which exists since `Message` derives `Default`,
is accepted off-chain but rejected in-VM because only the VM path
checks the checksum).  Amended statement, proved here: on every
honestly produced input — a message that is the digit encoding
`Message::from_u32(m)` of some `m < 2^31` and the matching signature —
the two paths agree: both accept. -/
theorem C6_winternitz_agreement (h : Item → Item) (sk : SecretKey) (m : Nat)
    (hsk : sk.length = N) (hm : m < 2 ^ 31) :
    inVMVerifies h (public_key h sk) (sign h sk (from_u32 m)) = true ∧
    verify h (public_key h sk) (from_u32 m) (sign h sk (from_u32 m)) = true :=
  ⟨in_vm_accepts_honest h sk m hsk,
   verify_sign h sk (from_u32 m) (fun d hd => by
     have := from_u32_le m d hd
     norm_num [D]
     omega)⟩

theorem C6_winternitz_agreement_witness :
    inVMVerifies consHash
        (public_key consHash (List.replicate 10 ([] : Item)))
        (sign consHash (List.replicate 10 ([] : Item)) (from_u32 5)) = true ∧
    verify consHash (public_key consHash (List.replicate 10 ([] : Item)))
        (from_u32 5)
        (sign consHash (List.replicate 10 ([] : Item)) (from_u32 5)) = true :=
  C6_winternitz_agreement consHash (List.replicate 10 ([] : Item)) 5
    (by decide) (by norm_num)

set_option maxRecDepth 20000 in
theorem C6_counterexample :
    verify consHash
        (public_key consHash (List.replicate 10 ([] : Item)))
        (List.replicate 10 0)
        (sign consHash (List.replicate 10 ([] : Item))
          (List.replicate 10 0)) = true ∧
    inVMVerifies consHash
        (public_key consHash (List.replicate 10 ([] : Item)))
        (sign consHash (List.replicate 10 ([] : Item))
          (List.replicate 10 0)) = false := by
  constructor
  · decide
  · decide

theorem leNat_encodeNum (v : Nat) (hv : 0 < v) :
    leNat (encodeNum ((v : Nat) : Int)) = v := by
  have h0 : ((v : Nat) : Int) ≠ 0 := by omega
  have hna : ((v : Nat) : Int).natAbs = v := Int.natAbs_ofNat v
  have hne := natBytes_ne_nil v (by omega)
  obtain ⟨xs, x, hx⟩ := exists_concat _ hne
  rw [encodeNum, if_neg h0, hna, hx]
  simp only [List.getLast?_concat]
  rcases lt_or_ge x 128 with hsmall | hbig
  · rw [if_pos hsmall, if_neg (by omega : ¬(((v : Nat) : Int) < 0))]
    rw [← hx, leNat_natBytes]
  · rw [if_neg (by omega)]
    rw [if_neg (by omega : ¬(((v : Nat) : Int) < 0))]
    rw [show xs ++ [x] ++ [(0 : Nat)] = xs ++ [x] ++ [0] from rfl]
    rw [leNat_append_single (xs ++ [x]) 0, ← hx, leNat_natBytes]
    ring

theorem limbsOfItem_canonical (v : Nat) (hv : v < 2 ^ 31) :
    limbsOfItem (encodeNum ((v : Nat) : Int)) = [v] := by
  by_cases h0 : v = 0
  · subst h0
    rw [show encodeNum ((0 : Nat) : Int) = [] from rfl]
    rfl
  · have hne : encodeNum ((v : Nat) : Int) ≠ [] := by
      intro hnil
      have := decode_encode ((v : Nat) : Int)
      rw [hnil] at this
      simp [decodeNum] at this
      omega
    have hlen : (encodeNum ((v : Nat) : Int)).length ≤ 4 :=
      encodeNum_length _ (by simpa using hv)
    rw [limbsOfItem, if_neg hne, limbsOfBytes_eq, if_neg hne]
    rw [List.take_of_length_le hlen, List.drop_eq_nil_of_le hlen]
    rw [limbsOfBytes_eq, if_pos rfl]
    rw [leNat_encodeNum v (by omega)]

theorem stackAsU32_canonical (s : List Item)
    (hc : ∀ it ∈ s, canonicalItem it) :
    (stackAsU32 s).map (fun v => encodeNum ((v : Nat) : Int)) = s.reverse
    ∧ (∀ u ∈ stackAsU32 s, u < 2 ^ 31)
    ∧ (stackAsU32 s).length = s.length := by
  induction s with
  | nil => refine ⟨rfl, by simp [stackAsU32], rfl⟩
  | cons a s ih =>
    obtain ⟨hmap, hlt, hlen⟩ := ih (fun it hit => hc it (by simp [hit]))
    obtain ⟨v, hv, hva⟩ := hc a (by simp)
    have hsplit : stackAsU32 (a :: s) = stackAsU32 s ++ limbsOfItem a := by
      simp [stackAsU32, List.reverse_cons]
    have hla : limbsOfItem a = [v] := by rw [hva]; exact limbsOfItem_canonical v hv
    refine ⟨?_, ?_, ?_⟩
    · rw [hsplit, hla, List.map_append, hmap, List.reverse_cons, List.map_cons,
        List.map_nil, ← hva]
    · intro u hu
      rw [hsplit, hla] at hu
      simp only [List.mem_append, List.mem_cons, List.not_mem_nil, or_false] at hu
      rcases hu with hu | rfl
      · exact hlt u hu
      · exact hv
    · rw [hsplit, hla]
      simp [hlen]

theorem exec_checksig_verify (h : Item → Item) (sk : SecretKey) (m : Nat)
    (hsk : sk.length = N) (rest alt : List Item) :
    execScript h ⟨wStackOfPairs (sign h sk (from_u32 m)) ++ rest, alt⟩
        (checksig_verify_script (public_key h sk))
      = some ⟨(msgDigits N0 m).map (fun d => encodeNum ((d : Nat) : Int))
          ++ rest, alt⟩ := by
  have hlen : sk.length = (from_u32 m).length := by
    rw [hsk, from_u32_length]
  obtain ⟨e0, e1, e2, e3, e4, e5, e6, e7, he⟩ :
      ∃ e0 e1 e2 e3 e4 e5 e6 e7,
        msgDigits N0 m = [e0, e1, e2, e3, e4, e5, e6, e7] :=
    ⟨_, _, _, _, _, _, _, _, rfl⟩
  have hbd : ∀ d ∈ msgDigits N0 m, d ≤ 15 := msgDigits_le N0 m
  rw [he] at hbd
  have hb0 : e0 ≤ 15 := hbd e0 (by simp)
  have hb1 : e1 ≤ 15 := hbd e1 (by simp)
  have hb2 : e2 ≤ 15 := hbd e2 (by simp)
  have hb3 : e3 ≤ 15 := hbd e3 (by simp)
  have hb4 : e4 ≤ 15 := hbd e4 (by simp)
  have hb5 : e5 ≤ 15 := hbd e5 (by simp)
  have hb6 : e6 ≤ 15 := hbd e6 (by simp)
  have hb7 : e7 ≤ 15 := hbd e7 (by simp)
  have hfu : from_u32 m
      = msgDigits N0 m ++
        [(D * N0 - (msgDigits N0 m).sum) % 16,
         (D * N0 - (msgDigits N0 m).sum) / 16] := rfl
  rw [he] at hfu
  have hsumlit : ([e0, e1, e2, e3, e4, e5, e6, e7] : List Nat).sum
      = e0 + e1 + e2 + e3 + e4 + e5 + e6 + e7 := by
    simp only [List.sum_cons, List.sum_nil]
    ring
  rw [hsumlit] at hfu
  have hDN : D * N0 = 120 := by decide
  rw [hDN] at hfu
  unfold checksig_verify_script
  rw [checksig_blocks_eq h sk (from_u32 m) hlen (from_u32_le m)]
  rw [execScript_append]
  rw [exec_digitBlocks h (sign h sk (from_u32 m)) rest alt
    (sign_fst_le h sk (from_u32 m) (from_u32_le m))]
  simp only [Option.some_bind]
  rw [show (fun p : Nat × Item => encodeNum ((p.1 : Nat) : Int))
      = (fun d : Nat => encodeNum ((d : Nat) : Int)) ∘ Prod.fst from rfl]
  rw [← List.map_map, sign_map_fst h sk (from_u32 m) hlen]
  rw [hfu]
  simp only [List.cons_append, List.nil_append]
  rw [show (List.map (fun d : Nat => encodeNum ((d : Nat) : Int))
        [e0, e1, e2, e3, e4, e5, e6, e7,
         (120 - (e0 + e1 + e2 + e3 + e4 + e5 + e6 + e7)) % 16,
         (120 - (e0 + e1 + e2 + e3 + e4 + e5 + e6 + e7)) / 16]).reverse
      = [encodeNum
          (((120 - (e0 + e1 + e2 + e3 + e4 + e5 + e6 + e7)) / 16 : Nat) : Int),
        encodeNum
          (((120 - (e0 + e1 + e2 + e3 + e4 + e5 + e6 + e7)) % 16 : Nat) : Int),
        encodeNum ((e7 : Nat) : Int), encodeNum ((e6 : Nat) : Int),
        encodeNum ((e5 : Nat) : Int), encodeNum ((e4 : Nat) : Int),
        encodeNum ((e3 : Nat) : Int), encodeNum ((e2 : Nat) : Int),
        encodeNum ((e1 : Nat) : Int), encodeNum ((e0 : Nat) : Int)]
      from by simp]
  simp only [List.cons_append, List.nil_append]
  rw [exec_checksumScript h e0 e1 e2 e3 e4 e5 e6 e7
    ((120 - (e0 + e1 + e2 + e3 + e4 + e5 + e6 + e7)) % 16)
    ((120 - (e0 + e1 + e2 + e3 + e4 + e5 + e6 + e7)) / 16)
    rest alt hb0 hb1 hb2 hb3 hb4 hb5 hb6 hb7 (by omega) (by omega) (by omega)]
  rw [he]
  simp

theorem msgDigits_explicit (m : Nat) :
    msgDigits N0 m
      = [m % 16, m / 16 % 16, m / 16 / 16 % 16, m / 16 / 16 / 16 % 16,
         m / 16 / 16 / 16 / 16 % 16, m / 16 / 16 / 16 / 16 / 16 % 16,
         m / 16 / 16 / 16 / 16 / 16 / 16 % 16,
         m / 16 / 16 / 16 / 16 / 16 / 16 / 16 % 16] := rfl

theorem exec_itemVerify (h : Item → Item) (sk : SecretKey) (v : Nat)
    (hsk : sk.length = N) (hv : v < 2 ^ 31) (rest alt : List Item) :
    execScript h
        ⟨wStackOfPairs ((SignedStackElement.mk v sk).signature h) ++ rest, alt⟩
        (itemVerify h ⟨v, sk⟩)
      = some ⟨rest, encodeNum ((v : Nat) : Int) :: alt⟩ := by
  have hpk : (SignedStackElement.mk v sk).publicKey h = public_key h sk := rfl
  have hsig : (SignedStackElement.mk v sk).signature h
      = sign h sk (from_u32 v) := rfl
  rw [hsig]
  rw [show itemVerify h ⟨v, sk⟩
      = checksig_verify_script (public_key h sk) ++
        (recovery_script ++ [Instr.op OP_TOALTSTACK]) from by
    simp [itemVerify, hpk, List.append_assoc]]
  rw [execScript_append, exec_checksig_verify h sk v hsk rest alt]
  simp only [Option.some_bind]
  rw [msgDigits_explicit]
  simp only [List.map_cons, List.map_nil, List.cons_append, List.nil_append]
  rw [execScript_append]
  rw [exec_recovery h (v % 16) (v / 16 % 16) (v / 16 / 16 % 16)
    (v / 16 / 16 / 16 % 16) (v / 16 / 16 / 16 / 16 % 16)
    (v / 16 / 16 / 16 / 16 / 16 % 16) (v / 16 / 16 / 16 / 16 / 16 / 16 % 16)
    (v / 16 / 16 / 16 / 16 / 16 / 16 / 16 % 16) rest alt (by omega)]
  simp only [Option.some_bind]
  rw [show v % 16 + 16 * (v / 16 % 16) + 16 ^ 2 * (v / 16 / 16 % 16) +
      16 ^ 3 * (v / 16 / 16 / 16 % 16) + 16 ^ 4 * (v / 16 / 16 / 16 / 16 % 16) +
      16 ^ 5 * (v / 16 / 16 / 16 / 16 / 16 % 16) +
      16 ^ 6 * (v / 16 / 16 / 16 / 16 / 16 / 16 % 16) +
      16 ^ 7 * (v / 16 / 16 / 16 / 16 / 16 / 16 / 16 % 16) = v by omega]
  rw [execScript_cons_some h _ (step_toalt h _ _ _)]
  rfl

theorem exec_sig_pushes (h : Item → Item) (es : List SignedStackElement) :
    ∀ v : VM,
      execScript h v ((es.map fun e => to_script_sig (e.signature h)).flatten)
        = some ⟨(es.reverse.map fun e =>
            wStackOfPairs (e.signature h)).flatten ++ v.main, v.alt⟩ := by
  induction es with
  | nil => intro v; simp
  | cons e es ih =>
    intro v
    simp only [List.map_cons, List.flatten_cons]
    rw [execScript_append, exec_to_script_sig]
    simp only [Option.some_bind]
    rw [ih ⟨wStackOfPairs (e.signature h) ++ v.main, v.alt⟩]
    simp [List.reverse_cons, List.append_assoc]

theorem exec_witness_push (h : Item → Item) (st : SignedIntermediateState) :
    ∀ v : VM,
      execScript h v (witness_script h st)
        = some ⟨(st.altstack.map fun e =>
              wStackOfPairs (e.signature h)).flatten ++
            (st.stack.reverse.map fun e =>
              wStackOfPairs (e.signature h)).flatten ++ v.main, v.alt⟩ := by
  intro v
  rw [witness_script, execScript_append, exec_sig_pushes]
  simp only [Option.some_bind]
  rw [exec_sig_pushes]
  simp [List.append_assoc]

theorem exec_itemVerifyList (h : Item → Item) (es : List SignedStackElement)
    (hD : ∀ e ∈ es, e.secret_key.length = N ∧ e.stack_element < 2 ^ 31) :
    ∀ rest alt : List Item,
      execScript h
          ⟨(es.map fun e => wStackOfPairs (e.signature h)).flatten ++ rest, alt⟩
          ((es.map (itemVerify h)).flatten)
        = some ⟨rest,
            (es.reverse.map fun e =>
              encodeNum ((e.stack_element : Nat) : Int)) ++ alt⟩ := by
  induction es with
  | nil => intro rest alt; simp
  | cons e es ih =>
    intro rest alt
    obtain ⟨hsk, hv⟩ := hD e (by simp)
    simp only [List.map_cons, List.flatten_cons, List.append_assoc]
    rw [execScript_append]
    have he : (⟨e.stack_element, e.secret_key⟩ : SignedStackElement) = e := rfl
    have hstep := exec_itemVerify h e.secret_key e.stack_element hsk hv
      ((es.map fun e => wStackOfPairs (e.signature h)).flatten ++ rest) alt
    rw [he] at hstep
    rw [hstep]
    simp only [Option.some_bind]
    rw [ih (fun x hx => hD x (by simp [hx])) rest
      (encodeNum ((e.stack_element : Nat) : Int) :: alt)]
    simp [List.reverse_cons, List.append_assoc]

theorem exec_fromaltN (h : Item → Item) :
    ∀ (pre : List Item) (mn a : List Item),
      execScript h ⟨mn, pre ++ a⟩
          (List.replicate pre.length (Instr.op OP_FROMALTSTACK))
        = some ⟨pre.reverse ++ mn, a⟩ := by
  intro pre
  induction pre with
  | nil => intro mn a; simp
  | cons x pre ih =>
    intro mn a
    simp only [List.length_cons, List.replicate_succ, List.cons_append]
    rw [execScript_cons_some h _ (step_fromalt h _ _ _)]
    rw [ih (x :: mn) a]
    simp [List.append_assoc]

theorem exec_rollBottomN (h : Item → Item) (d : Nat) (hd : d < 2 ^ 31) :
    ∀ (M X a : List Item), (M = [] ∨ X.length + M.length = d + 1) →
      execScript h ⟨X ++ M, a⟩
          ((List.replicate M.length [pushInt ((d : Nat) : Int),
            Instr.op OP_ROLL]).flatten)
        = some ⟨M ++ X, a⟩ := by
  intro M
  induction M using List.reverseRecOn with
  | nil => intro X a _; simp
  | append_singleton M b ih =>
    intro X a hlen
    rcases hlen with hnil | hlen
    · exact absurd hnil (by simp)
    · simp only [List.length_append, List.length_cons, List.length_nil]
      rw [show M.length + 1 = (M ++ [b]).length by simp]
      rw [show (M ++ [b]).length = (M ++ [b]).length - 1 + 1 by simp]
      simp only [List.replicate_succ, List.flatten_cons]
      rw [execScript_append]
      have hroll : execScript h ⟨X ++ (M ++ [b]), a⟩
          [pushInt ((d : Nat) : Int), Instr.op OP_ROLL]
          = some ⟨b :: (X ++ M), a⟩ := by
        have hget : (X ++ (M ++ [b])).get? d = some b := by
          rw [← List.append_assoc]
          rw [show d = (X ++ M).length by simp at hlen ⊢; omega]
          exact get?_middle (X ++ M) b []
        have herase : (X ++ (M ++ [b])).eraseIdx d = X ++ M := by
          rw [← List.append_assoc]
          rw [show d = (X ++ M).length by simp at hlen ⊢; omega]
          rw [eraseIdx_middle (X ++ M) b []]
          simp
        have := exec_roll_at h (X ++ (M ++ [b])) a d b hd hget
        rw [herase] at this
        exact this
      rw [hroll]
      simp only [Option.some_bind]
      rw [show (M ++ [b]).length - 1 = M.length by simp]
      rw [show (b :: (X ++ M)) = (b :: X) ++ M from rfl]
      rw [ih (b :: X) a (by
        simp only [List.length_cons]
        simp only [List.length_append, List.length_cons, List.length_nil] at hlen
        omega)]
      simp [List.append_assoc]

theorem num?_boolItem (b : Bool) :
    num? (boolItem b) = some (if b then 1 else 0) := by
  cases b <;> rfl

theorem notItem_eq (b : Bool) :
    encodeNum (if (if b then (1 : Int) else 0) = 0 then (1 : Int) else 0)
      = boolItem (!b) := by
  cases b <;> rfl

theorem orItem_eq (x y : Bool) :
    encodeNum (if (if x then (1 : Int) else 0) ≠ 0 ∨
        (if y then (1 : Int) else 0) ≠ 0 then (1 : Int) else 0)
      = boolItem (x || y) := by
  cases x <;> cases y <;> rfl

theorem exec_longNEqLoop (h : Item → Item) :
    ∀ (B A R a : List Item), A.length = B.length → B.length + 1 < 2 ^ 31 →
      execScript h ⟨B ++ A ++ R, a⟩
          (((List.range B.length).reverse.map fun j =>
            [pushInt ((j + 1 : Nat) : Int), Instr.op OP_ROLL,
             Instr.op OP_EQUAL, Instr.op OP_NOT,
             Instr.op OP_TOALTSTACK]).flatten)
        = some ⟨R,
            ((List.zipWith (fun x y => decide (x ≠ y)) B A).map
              boolItem).reverse ++ a⟩ := by
  intro B
  induction B with
  | nil =>
    intro A R a hlen _
    have hA : A = [] := List.eq_nil_of_length_eq_zero (by simpa using hlen)
    subst hA
    simp
  | cons x B ih =>
    intro A R a hlen hB
    match A with
    | [] => simp at hlen
    | y :: A =>
      have hlen2 : A.length = B.length := by simpa using hlen
      rw [show (((List.range (x :: B).length).reverse.map fun j =>
            [pushInt ((j + 1 : Nat) : Int), Instr.op OP_ROLL,
             Instr.op OP_EQUAL, Instr.op OP_NOT,
             Instr.op OP_TOALTSTACK]).flatten)
          = ([pushInt ((B.length + 1 : Nat) : Int), Instr.op OP_ROLL] ++
            ([Instr.op OP_EQUAL, Instr.op OP_NOT, Instr.op OP_TOALTSTACK] ++
            ((List.range B.length).reverse.map fun j =>
              [pushInt ((j + 1 : Nat) : Int), Instr.op OP_ROLL,
               Instr.op OP_EQUAL, Instr.op OP_NOT,
               Instr.op OP_TOALTSTACK]).flatten)) from by
        simp [List.range_succ]]
      rw [execScript_append]
      rw [show (x :: B) ++ (y :: A) ++ R = (x :: B) ++ y :: (A ++ R) by simp]
      have hget : ((x :: B) ++ y :: (A ++ R)).get? (B.length + 1) = some y := by
        rw [show B.length + 1 = (x :: B).length by simp]
        exact get?_middle (x :: B) y (A ++ R)
      have herase : ((x :: B) ++ y :: (A ++ R)).eraseIdx (B.length + 1)
          = (x :: B) ++ (A ++ R) := by
        rw [show B.length + 1 = (x :: B).length by simp]
        exact eraseIdx_middle (x :: B) y (A ++ R)
      have hroll := exec_roll_at h ((x :: B) ++ y :: (A ++ R)) a
        (B.length + 1) y (by simp at hB; omega) hget
      rw [herase] at hroll
      rw [hroll]
      simp only [Option.some_bind]
      rw [show y :: ((x :: B) ++ (A ++ R)) = y :: x :: (B ++ (A ++ R))
        from rfl]
      simp only [List.cons_append, List.nil_append]
      rw [execScript_cons_some h _ (step_equal h x y _ _)]
      rw [execScript_cons, step_not, num?_boolItem]
      simp only
      rw [notItem_eq]
      rw [execScript_cons_some h _ (step_toalt h _ _ _)]
      rw [show B ++ (A ++ R) = B ++ A ++ R by simp]
      rw [ih A R (boolItem (!decide (x = y)) :: a) hlen2
        (by simp only [List.length_cons] at hB; omega)]
      simp only [List.zipWith_cons_cons, List.map_cons, List.reverse_cons,
        List.append_assoc, List.cons_append, List.nil_append]
      simp only [ne_eq, decide_not]

theorem exec_orLoop (h : Item → Item) :
    ∀ (bs : List Bool) (acc : Bool) (mn a : List Item),
      execScript h ⟨boolItem acc :: mn, (bs.map boolItem) ++ a⟩
          ((List.replicate bs.length
            [Instr.op OP_FROMALTSTACK, Instr.op OP_BOOLOR]).flatten)
        = some ⟨boolItem (acc || bs.any id) :: mn, a⟩ := by
  intro bs
  induction bs with
  | nil => intro acc mn a; simp
  | cons b bs ih =>
    intro acc mn a
    simp only [List.length_cons, List.replicate_succ, List.flatten_cons,
      List.map_cons, List.cons_append]
    rw [execScript_cons_some h _ (step_fromalt h _ _ _)]
    rw [execScript_cons, step_boolor, num?_boolItem, num?_boolItem]
    simp only
    rw [orItem_eq]
    simp only [List.nil_append]
    rw [ih (acc || b) mn a]
    simp [Bool.or_assoc]

theorem any_zipWith_ne :
    ∀ (B A : List Item), A.length = B.length →
      (List.zipWith (fun x y => decide (x ≠ y)) B A).any id
        = decide (¬(B = A)) := by
  intro B
  induction B with
  | nil =>
    intro A hlen
    have hA : A = [] := List.eq_nil_of_length_eq_zero (by simpa using hlen)
    subst hA
    simp
  | cons x B ih =>
    intro A hlen
    match A with
    | [] => simp at hlen
    | y :: A =>
      have hlen2 : A.length = B.length := by simpa using hlen
      have hih := ih A hlen2
      simp only [List.zipWith_cons_cons, List.any_cons, id_eq, hih]
      by_cases h1 : x = y <;> by_cases h2 : B = A <;> simp [h1, h2]

theorem exec_longNotEqual (h : Item → Item) (B A R a : List Item)
    (hlen : A.length = B.length) (hB : B.length + 1 < 2 ^ 31) :
    execScript h ⟨B ++ A ++ R, a⟩ (OP_LONGNOTEQUAL B.length)
      = some ⟨boolItem (decide (¬(B = A))) :: R, a⟩ := by
  match B, hlen with
  | [], hlen =>
    have hA : A = [] := List.eq_nil_of_length_eq_zero (by simpa using hlen)
    subst hA
    rw [show OP_LONGNOTEQUAL (List.length ([] : List Item)) = [.push []]
      from rfl]
    rw [execScript_cons_some h _ (step_push h _ [])]
    simp [boolItem]
  | x :: B2, hlen =>
    rw [OP_LONGNOTEQUAL, if_neg (by simp)]
    rw [execScript_append, execScript_append]
    rw [exec_longNEqLoop h (x :: B2) A R a hlen hB]
    simp only [Option.some_bind]
    have hzlen : (List.zipWith (fun x y => decide (x ≠ y)) (x :: B2) A).length
        = B2.length + 1 := by
      rw [List.length_zipWith, hlen]
      simp
    obtain ⟨c, cs, hcc⟩ : ∃ c cs,
        (List.zipWith (fun x y => decide (x ≠ y)) (x :: B2) A).reverse
          = c :: cs := by
      have : (List.zipWith (fun x y => decide (x ≠ y)) (x :: B2) A).reverse ≠ [] := by
        simp only [ne_eq, List.reverse_eq_nil_iff]
        intro hz
        rw [hz] at hzlen
        simp at hzlen
      exact List.exists_cons_of_ne_nil this
    rw [show ((List.zipWith (fun x y => decide (x ≠ y)) (x :: B2) A).map
          boolItem).reverse
        = ((List.zipWith (fun x y => decide (x ≠ y)) (x :: B2) A).reverse).map
          boolItem from (List.map_reverse _ _).symm]
    rw [hcc]
    simp only [List.map_cons, List.cons_append]
    rw [execScript_cons_some h _ (step_fromalt h _ _ _)]
    rw [show List.length (x :: B2) - 1 = cs.length by
      have := congrArg List.length hcc
      simp only [List.length_reverse, hzlen, List.length_cons] at this
      simp at this ⊢
      omega]
    simp only [List.nil_append, execScript_nil, Option.some_bind]
    rw [exec_orLoop h cs c R a]
    have hany : (c || cs.any id) = decide (¬(x :: B2 = A)) := by
      rw [show (c || cs.any id) = (c :: cs).any id by simp]
      rw [← hcc, List.any_reverse]
      exact any_zipWith_ne (x :: B2) A hlen
    rw [hany]

theorem itemTruthy_boolItem (b : Bool) : itemTruthy (boolItem b) = b := by
  cases b <;> rfl

theorem signElems_cond (k : Nat → SecretKey) (hk : ∀ i, (k i).length = N)
    (u : List Nat) (hu : ∀ x ∈ u, x < 2 ^ 31) :
    ∀ e ∈ u.enum.map (fun p => (⟨p.2, k p.1⟩ : SignedStackElement)),
      e.secret_key.length = N ∧ e.stack_element < 2 ^ 31 := by
  intro e he
  simp only [List.mem_map] at he
  obtain ⟨p, hp, rfl⟩ := he
  refine ⟨hk p.1, hu p.2 ?_⟩
  have hsnd : p.2 ∈ u.enum.map Prod.snd := List.mem_map_of_mem Prod.snd hp
  rw [List.enum_map_snd] at hsnd
  exact hsnd

theorem signElems_map_enc (k : Nat → SecretKey) (u : List Nat) :
    (u.enum.map (fun p => (⟨p.2, k p.1⟩ : SignedStackElement))).map
        (fun e => encodeNum ((e.stack_element : Nat) : Int))
      = u.map (fun v => encodeNum ((v : Nat) : Int)) := by
  rw [List.map_map]
  rw [show ((fun e : SignedStackElement =>
        encodeNum ((e.stack_element : Nat) : Int)) ∘
        (fun p : Nat × Nat => (⟨p.2, k p.1⟩ : SignedStackElement)))
      = (fun v : Nat => encodeNum ((v : Nat) : Int)) ∘ Prod.snd from rfl]
  rw [← List.map_map, List.enum_map_snd]

theorem range_map_const {α : Type _} (n : Nat) (b : α) :
    ((List.range n).map fun _ => b) = List.replicate n b := by
  induction n with
  | zero => rfl
  | succ n ih =>
    rw [List.range_succ, List.map_append, ih, List.map_cons, List.map_nil]
    rw [List.replicate_succ']

theorem exec_fromaltN2 (h : Item → Item) (n : Nat) (pre mn a : List Item)
    (hn : pre.length = n) :
    execScript h ⟨mn, pre ++ a⟩
        (List.replicate n (Instr.op OP_FROMALTSTACK))
      = some ⟨pre.reverse ++ mn, a⟩ := by
  subst hn
  exact exec_fromaltN h pre mn a

theorem exec_rollBottomN2 (h : Item → Item) (c d : Nat) (hd : d < 2 ^ 31)
    (M X a : List Item) (hc : M.length = c)
    (hlen : M = [] ∨ X.length + M.length = d + 1) :
    execScript h ⟨X ++ M, a⟩
        ((List.replicate c [pushInt ((d : Nat) : Int),
          Instr.op OP_ROLL]).flatten)
      = some ⟨M ++ X, a⟩ := by
  subst hc
  exact exec_rollBottomN h d hd M X a hlen

theorem exec_longNotEqual2 (h : Item → Item) (l : Nat) (B A R a : List Item)
    (hl : B.length = l) (hlen : A.length = B.length)
    (hB : B.length + 1 < 2 ^ 31) :
    execScript h ⟨B ++ A ++ R, a⟩ (OP_LONGNOTEQUAL l)
      = some ⟨boolItem (decide (¬(B = A))) :: R, a⟩ := by
  subst hl
  exact exec_longNotEqual h B A R a hlen hB

/-- C1 (corrected): the lock built by `DisproveScript::new` decides
`to ≠ f(from)` — execution of witness followed by lock succeeds exactly
when the shard output differs from the signed `to` state — under the
operating conditions of the protocol (see the separate counterexample
for why they are needed): every item of both states is the canonical
encoding of a number below `2^31`, the shard `f` maps the `from` state
to some `(gs, ga)` without touching deeper altstack entries, and
`(gs, ga)` has the same stack shape as the `to` state. -/
theorem C1_disprove_iff (h : Item → Item) (kFS kFA kTS kTA : Nat → SecretKey)
    (zFrom zTo : IntermediateState) (f : Script) (gs ga : List Item)
    (hkFS : ∀ i, (kFS i).length = N) (hkFA : ∀ i, (kFA i).length = N)
    (hkTS : ∀ i, (kTS i).length = N) (hkTA : ∀ i, (kTA i).length = N)
    (hcFS : ∀ it ∈ zFrom.stack, canonicalItem it)
    (hcFA : ∀ it ∈ zFrom.altstack, canonicalItem it)
    (hcTS : ∀ it ∈ zTo.stack, canonicalItem it)
    (hcTA : ∀ it ∈ zTo.altstack, canonicalItem it)
    (hf : ∀ A : List Item,
      execScript h ⟨zFrom.stack, zFrom.altstack ++ A⟩ f = some ⟨gs, ga ++ A⟩)
    (hgs : gs.length = zTo.stack.length)
    (hga : ga.length = zTo.altstack.length)
    (hsmall : 2 * zTo.stack.length + 2 * zTo.altstack.length + 2 < 2 ^ 31) :
    runSucceeds h
        ((DisproveScript.new h kFS kFA kTS kTA zFrom zTo f).script_witness ++
         (DisproveScript.new h kFS kFA kTS kTA zFrom zTo f).script_pubkey)
      = true
    ↔ ¬(gs = zTo.stack ∧ ga = zTo.altstack) := by
  obtain ⟨hm1, hlt1, hln1⟩ := stackAsU32_canonical zFrom.stack hcFS
  obtain ⟨hm2, hlt2, hln2⟩ := stackAsU32_canonical zFrom.altstack hcFA
  obtain ⟨hm3, hlt3, hln3⟩ := stackAsU32_canonical zTo.stack hcTS
  obtain ⟨hm4, hlt4, hln4⟩ := stackAsU32_canonical zTo.altstack hcTA
  have hFSs : (signState kFS kFA zFrom).stack
      = (stackAsU32 zFrom.stack).enum.map
          (fun p => (⟨p.2, kFS p.1⟩ : SignedStackElement)) := rfl
  have hFSa : (signState kFS kFA zFrom).altstack
      = (stackAsU32 zFrom.altstack).enum.map
          (fun p => (⟨p.2, kFA p.1⟩ : SignedStackElement)) := rfl
  have hTSs : (signState kTS kTA zTo).stack
      = (stackAsU32 zTo.stack).enum.map
          (fun p => (⟨p.2, kTS p.1⟩ : SignedStackElement)) := rfl
  have hTSa : (signState kTS kTA zTo).altstack
      = (stackAsU32 zTo.altstack).enum.map
          (fun p => (⟨p.2, kTA p.1⟩ : SignedStackElement)) := rfl
  have hLFSs : (signState kFS kFA zFrom).stack.length = zFrom.stack.length := by
    rw [hFSs, List.length_map, List.enum_length, hln1]
  have hLTSs : (signState kTS kTA zTo).stack.length = zTo.stack.length := by
    rw [hTSs, List.length_map, List.enum_length, hln3]
  have hLTSa : (signState kTS kTA zTo).altstack.length
      = zTo.altstack.length := by
    rw [hTSa, List.length_map, List.enum_length, hln4]
  have hCFSs : ∀ e ∈ (signState kFS kFA zFrom).stack,
      e.secret_key.length = N ∧ e.stack_element < 2 ^ 31 := by
    rw [hFSs]; exact signElems_cond kFS hkFS _ hlt1
  have hCFSa : ∀ e ∈ (signState kFS kFA zFrom).altstack,
      e.secret_key.length = N ∧ e.stack_element < 2 ^ 31 := by
    rw [hFSa]; exact signElems_cond kFA hkFA _ hlt2
  have hCTSs : ∀ e ∈ (signState kTS kTA zTo).stack,
      e.secret_key.length = N ∧ e.stack_element < 2 ^ 31 := by
    rw [hTSs]; exact signElems_cond kTS hkTS _ hlt3
  have hCTSa : ∀ e ∈ (signState kTS kTA zTo).altstack,
      e.secret_key.length = N ∧ e.stack_element < 2 ^ 31 := by
    rw [hTSa]; exact signElems_cond kTA hkTA _ hlt4
  have hE1 : (signState kFS kFA zFrom).stack.map
      (fun e => encodeNum ((e.stack_element : Nat) : Int))
      = zFrom.stack.reverse := by
    rw [hFSs, signElems_map_enc, hm1]
  have hE2 : (signState kFS kFA zFrom).altstack.map
      (fun e => encodeNum ((e.stack_element : Nat) : Int))
      = zFrom.altstack.reverse := by
    rw [hFSa, signElems_map_enc, hm2]
  have hE3 : (signState kTS kTA zTo).stack.map
      (fun e => encodeNum ((e.stack_element : Nat) : Int))
      = zTo.stack.reverse := by
    rw [hTSs, signElems_map_enc, hm3]
  have hE4 : (signState kTS kTA zTo).altstack.map
      (fun e => encodeNum ((e.stack_element : Nat) : Int))
      = zTo.altstack.reverse := by
    rw [hTSa, signElems_map_enc, hm4]
  have htot : (signState kTS kTA zTo).total_len
      = zTo.stack.length + zTo.altstack.length := by
    rw [SignedIntermediateState.total_len, hLTSs, hLTSa]
  have hscript : (DisproveScript.new h kFS kFA kTS kTA zFrom zTo f).script_witness
      ++ (DisproveScript.new h kFS kFA kTS kTA zFrom zTo f).script_pubkey
      = ((signState kFS kFA zFrom).stack.map
          fun e => to_script_sig (e.signature h)).flatten ++
        (((signState kFS kFA zFrom).altstack.reverse.map
          fun e => to_script_sig (e.signature h)).flatten ++
        (((signState kTS kTA zTo).stack.map
          fun e => to_script_sig (e.signature h)).flatten ++
        (((signState kTS kTA zTo).altstack.reverse.map
          fun e => to_script_sig (e.signature h)).flatten ++
        (((signState kTS kTA zTo).altstack.map (itemVerify h)).flatten ++
        (((signState kTS kTA zTo).stack.reverse.map (itemVerify h)).flatten ++
        (((signState kFS kFA zFrom).altstack.map (itemVerify h)).flatten ++
        (((signState kFS kFA zFrom).stack.reverse.map (itemVerify h)).flatten ++
        (List.replicate (signState kFS kFA zFrom).stack.length
          (Instr.op OP_FROMALTSTACK) ++
        (f ++
        (List.replicate (signState kTS kTA zTo).altstack.length
          (Instr.op OP_FROMALTSTACK) ++
        (List.replicate (signState kTS kTA zTo).stack.length
          (Instr.op OP_FROMALTSTACK) ++
        (((List.range (signState kTS kTA zTo).stack.length).map fun _ =>
          [pushInt (((signState kTS kTA zTo).total_len +
            (signState kTS kTA zTo).stack.length - 1 : Nat) : Int),
           Instr.op OP_ROLL]).flatten ++
        (OP_LONGNOTEQUAL (signState kTS kTA zTo).stack.length ++
        (List.replicate (signState kTS kTA zTo).altstack.length
          (Instr.op OP_FROMALTSTACK) ++
        (((List.range (signState kTS kTA zTo).altstack.length).map fun _ =>
          [pushInt ((2 * (signState kTS kTA zTo).altstack.length : Nat) : Int),
           Instr.op OP_ROLL]).flatten ++
        (OP_LONGNOTEQUAL (signState kTS kTA zTo).altstack.length ++
        [Instr.op OP_BOOLOR])))))))))))))))) := by
    simp only [DisproveScript.new, witness_script, verification_script,
      verification_script_toaltstack, verification_script_fromaltstack,
      List.append_assoc]
  have hrun : execScript h ⟨[], []⟩
      ((DisproveScript.new h kFS kFA kTS kTA zFrom zTo f).script_witness ++
       (DisproveScript.new h kFS kFA kTS kTA zFrom zTo f).script_pubkey)
      = some ⟨[boolItem (decide (¬(gs = zTo.stack)) ||
          decide (¬(ga.reverse = zTo.altstack.reverse)))], []⟩ := by
    rw [hscript]
    rw [execScript_append, exec_sig_pushes]
    simp only [Option.some_bind]
    rw [execScript_append, exec_sig_pushes]
    simp only [Option.some_bind]
    rw [execScript_append, exec_sig_pushes]
    simp only [Option.some_bind]
    rw [execScript_append, exec_sig_pushes]
    simp only [Option.some_bind, List.append_nil, List.reverse_reverse]
    rw [execScript_append, exec_itemVerifyList h _ hCTSa]
    simp only [Option.some_bind]
    rw [execScript_append,
      exec_itemVerifyList h _ (fun e he => hCTSs e (List.mem_reverse.mp he))]
    simp only [Option.some_bind, List.reverse_reverse]
    rw [execScript_append, exec_itemVerifyList h _ hCFSa]
    simp only [Option.some_bind]
    rw [show (((signState kFS kFA zFrom).stack.reverse.map
          (fun e => wStackOfPairs (e.signature h))).flatten : List Item)
        = ((signState kFS kFA zFrom).stack.reverse.map
          (fun e => wStackOfPairs (e.signature h))).flatten ++ []
        from (List.append_nil _).symm]
    rw [execScript_append,
      exec_itemVerifyList h _ (fun e he => hCFSs e (List.mem_reverse.mp he))]
    simp only [Option.some_bind, List.reverse_reverse]
    simp only [List.map_reverse]
    rw [hE1, hE2, hE3, hE4]
    simp only [List.reverse_reverse, List.append_nil]
    rw [execScript_append,
      exec_fromaltN2 h ((signState kFS kFA zFrom).stack.length)
        zFrom.stack.reverse _ _ (by rw [List.length_reverse, hLFSs])]
    simp only [Option.some_bind, List.reverse_reverse, List.append_nil]
    rw [execScript_append, hf (zTo.stack.reverse ++ zTo.altstack)]
    simp only [Option.some_bind]
    rw [execScript_append,
      exec_fromaltN2 h ((signState kTS kTA zTo).altstack.length) ga _ _
        (by rw [hga]; exact hLTSa.symm)]
    simp only [Option.some_bind]
    rw [execScript_append,
      exec_fromaltN2 h ((signState kTS kTA zTo).stack.length)
        zTo.stack.reverse _ _ (by rw [List.length_reverse]; exact hLTSs.symm)]
    simp only [Option.some_bind, List.reverse_reverse]
    rw [range_map_const]
    rw [show zTo.stack ++ (ga.reverse ++ gs)
        = (zTo.stack ++ ga.reverse) ++ gs from (List.append_assoc _ _ _).symm]
    rw [execScript_append,
      exec_rollBottomN2 h ((signState kTS kTA zTo).stack.length)
        ((signState kTS kTA zTo).total_len +
          (signState kTS kTA zTo).stack.length - 1)
        (by rw [htot, hLTSs]; omega)
        gs (zTo.stack ++ ga.reverse) _
        (by rw [hgs]; exact hLTSs.symm)
        (by
          by_cases hgs0 : gs = []
          · exact Or.inl hgs0
          · right
            have hgl : gs.length ≠ 0 :=
              fun h0 => hgs0 (List.eq_nil_of_length_eq_zero h0)
            rw [htot, hLTSs]
            simp only [List.length_append, List.length_reverse, hga, hgs]
            omega)]
    simp only [Option.some_bind]
    rw [show gs ++ (zTo.stack ++ ga.reverse)
        = (gs ++ zTo.stack) ++ ga.reverse from (List.append_assoc _ _ _).symm]
    rw [execScript_append,
      exec_longNotEqual2 h ((signState kTS kTA zTo).stack.length)
        gs zTo.stack ga.reverse _
        (by rw [hgs]; exact hLTSs.symm)
        hgs.symm
        (by rw [hgs]; omega)]
    simp only [Option.some_bind]
    have hS15 : execScript h
        ⟨boolItem (decide (¬(gs = zTo.stack))) :: ga.reverse, zTo.altstack⟩
        (List.replicate (signState kTS kTA zTo).altstack.length
          (Instr.op OP_FROMALTSTACK))
        = some ⟨zTo.altstack.reverse ++
            (boolItem (decide (¬(gs = zTo.stack))) :: ga.reverse), []⟩ := by
      have hh := exec_fromaltN2 h ((signState kTS kTA zTo).altstack.length)
        zTo.altstack (boolItem (decide (¬(gs = zTo.stack))) :: ga.reverse) []
        hLTSa.symm
      rw [List.append_nil] at hh
      exact hh
    rw [execScript_append, hS15]
    simp only [Option.some_bind]
    rw [range_map_const]
    rw [show zTo.altstack.reverse ++
          (boolItem (decide (¬(gs = zTo.stack))) :: ga.reverse)
        = (zTo.altstack.reverse ++
            [boolItem (decide (¬(gs = zTo.stack)))]) ++ ga.reverse
        from by simp]
    rw [execScript_append,
      exec_rollBottomN2 h ((signState kTS kTA zTo).altstack.length)
        (2 * (signState kTS kTA zTo).altstack.length)
        (by rw [hLTSa]; omega)
        ga.reverse
        (zTo.altstack.reverse ++ [boolItem (decide (¬(gs = zTo.stack)))]) _
        (by rw [List.length_reverse, hga]; exact hLTSa.symm)
        (by
          right
          simp only [List.length_append, List.length_reverse,
            List.length_cons, List.length_nil, hga, hLTSa]
          omega)]
    simp only [Option.some_bind]
    rw [show ga.reverse ++ (zTo.altstack.reverse ++
          [boolItem (decide (¬(gs = zTo.stack)))])
        = (ga.reverse ++ zTo.altstack.reverse) ++
          [boolItem (decide (¬(gs = zTo.stack)))]
        from (List.append_assoc _ _ _).symm]
    rw [execScript_append,
      exec_longNotEqual2 h ((signState kTS kTA zTo).altstack.length)
        ga.reverse zTo.altstack.reverse
        [boolItem (decide (¬(gs = zTo.stack)))] _
        (by rw [List.length_reverse, hga]; exact hLTSa.symm)
        (by simp [hga])
        (by rw [List.length_reverse, hga]; omega)]
    simp only [Option.some_bind]
    rw [execScript_cons, step_boolor, num?_boolItem, num?_boolItem]
    simp only
    rw [orItem_eq]
    rfl
  simp only [runSucceeds, hrun]
  simp only [itemTruthy_boolItem]
  simp only [Bool.or_eq_true, decide_eq_true_eq, List.reverse_inj]
  constructor
  · intro hne hand
    rcases hne with hne | hne
    · exact hne hand.1
    · exact hne hand.2
  · intro hne
    by_cases h1 : gs = zTo.stack
    · exact Or.inr (fun h2 => hne ⟨h1, h2⟩)
    · exact Or.inl h1

theorem C1_disprove_iff_witness :
    runSucceeds consHash
        ((DisproveScript.new consHash
            (fun _ => List.replicate 10 ([] : Item))
            (fun _ => List.replicate 10 ([] : Item))
            (fun _ => List.replicate 10 ([] : Item))
            (fun _ => List.replicate 10 ([] : Item))
            ⟨[[1]], []⟩ ⟨[[2]], []⟩ []).script_witness ++
         (DisproveScript.new consHash
            (fun _ => List.replicate 10 ([] : Item))
            (fun _ => List.replicate 10 ([] : Item))
            (fun _ => List.replicate 10 ([] : Item))
            (fun _ => List.replicate 10 ([] : Item))
            ⟨[[1]], []⟩ ⟨[[2]], []⟩ []).script_pubkey)
      = true :=
  (C1_disprove_iff consHash
    (fun _ => List.replicate 10 ([] : Item))
    (fun _ => List.replicate 10 ([] : Item))
    (fun _ => List.replicate 10 ([] : Item))
    (fun _ => List.replicate 10 ([] : Item))
    ⟨[[1]], []⟩ ⟨[[2]], []⟩ [] [[1]] []
    (fun _ => rfl) (fun _ => rfl)
    (fun _ => rfl) (fun _ => rfl)
    (fun it hit => by
      simp only [List.mem_cons, List.not_mem_nil, or_false] at hit
      subst hit
      exact ⟨1, by norm_num, by decide⟩)
    (fun it hit => absurd hit (List.not_mem_nil it))
    (fun it hit => by
      simp only [List.mem_cons, List.not_mem_nil, or_false] at hit
      subst hit
      exact ⟨2, by norm_num, by decide⟩)
    (fun it hit => absurd hit (List.not_mem_nil it))
    (fun A => rfl) rfl rfl (by decide)).mpr (by decide)

set_option maxRecDepth 100000 in
theorem C1_counterexample :
    execScript consHash ⟨[[1]], []⟩ [Instr.op OP_DROP] = some ⟨[], []⟩ ∧
    ¬(([] : List Item) = [[2]]) ∧
    runSucceeds consHash
        ((DisproveScript.new consHash
            (fun _ => List.replicate 10 ([] : Item))
            (fun _ => List.replicate 10 ([] : Item))
            (fun _ => List.replicate 10 ([] : Item))
            (fun _ => List.replicate 10 ([] : Item))
            ⟨[[1]], []⟩ ⟨[[2]], []⟩ [Instr.op OP_DROP]).script_witness ++
         (DisproveScript.new consHash
            (fun _ => List.replicate 10 ([] : Item))
            (fun _ => List.replicate 10 ([] : Item))
            (fun _ => List.replicate 10 ([] : Item))
            (fun _ => List.replicate 10 ([] : Item))
            ⟨[[1]], []⟩ ⟨[[2]], []⟩ [Instr.op OP_DROP]).script_pubkey)
      = false := by
  refine ⟨by decide, by decide, by decide⟩

end BitVM
